import Mathlib

/-!
Verification of the cycle-detection core of the Kanban-Board pipeline backend.

The development shallowly embeds the two source files:
  * backend/dag_utils.py : is_dag_dfs, find_cycle_dfs (three-colour DFS)
  * backend/main.py      : is_dag_topological (Kahn's algorithm)

Python dictionaries keyed by node identifier are embedded as total functions
String -> _ (a lookup of a key that Python would raise KeyError on returns the
function's default; the invariants proved below show such lookups never occur
on the executed paths).  The unbounded Python recursion / while loop is
embedded with an explicit fuel parameter; a result of none means the fuel ran
out (or, for find_cycle_dfs, that list.index would have raised ValueError).
Totality theorems show the fuel chosen by the top-level entry points always
suffices, so the embedded functions return some _ on every input, matching the
Python functions' totality.
-/

/-- Node identifiers are Python strings. -/
abbrev Node := String

/-- The colour map of dag_utils.py: 0 = white/unvisited, 1 = gray/in the
recursion stack, 2 = black/done. -/
abbrev Coloring := Node → Nat

/-- An adjacency view: each node's ordered list of outgoing neighbours. -/
abbrev Adj := Node → List Node

/-- The edges kept by the builders: both endpoints appear in the node list
(dangling edges are dropped silently by both source files). -/
def validEdges (nodes : List Node) (edges : List (Node × Node)) : List (Node × Node) :=
  edges.filter (fun e => decide (e.1 ∈ nodes ∧ e.2 ∈ nodes))

/-- adjacency = {node: [] for node in nodes}; for (source, target) in edges:
if source in adjacency and target in adjacency: adjacency[source].append(target).
(Both dag_utils.py and main.py build this structure identically.) -/
def buildAdjacency (nodes : List Node) (edges : List (Node × Node)) : Adj :=
  edges.foldl
    (fun adj e =>
      if e.1 ∈ nodes ∧ e.2 ∈ nodes then
        Function.update adj e.1 (adj e.1 ++ [e.2])
      else adj)
    (fun _ => [])

/-- indegree = {node: 0 for node in nodes}; for each kept edge,
indegree[edge.target] += 1 (main.py, is_dag_topological). -/
def buildIndegree (nodes : List Node) (edges : List (Node × Node)) : Node → Int :=
  edges.foldl
    (fun ind e =>
      if e.1 ∈ nodes ∧ e.2 ∈ nodes then
        Function.update ind e.2 (ind e.2 + 1)
      else ind)
    (fun _ => 0)

/-- Python dict key iteration order: the distinct elements of a list in order
of first occurrence (used for indegree.items() in main.py). -/
def firstDedupAux : List Node → List Node → List Node
  | [], _ => []
  | a :: l, seen =>
    if a ∈ seen then firstDedupAux l seen
    else a :: firstDedupAux l (a :: seen)

/-- The distinct node identifiers in order of first occurrence. -/
def firstDedup (l : List Node) : List Node :=
  firstDedupAux l []

/-- The recursive helper dfs of is_dag_dfs.  The accumulator of the neighbour
loop is none (fuel exhausted inside a recursive call), some (false, c) (a gray
neighbour was seen: Python returns False immediately) or some (true, c)
(still scanning with colour state c).  Returns none when the fuel runs out;
the Python recursion has no such case, and the totality theorem below shows
the fuel chosen by is_dag_dfs never runs out. -/
def dfsStep (rec : Node → Coloring → Option (Bool × Coloring))
    (acc : Option (Bool × Coloring)) (nb : Node) : Option (Bool × Coloring) :=
  match acc with
  | none => none
  | some (false, cc) => some (false, cc)
  | some (true, cc) =>
    if cc nb = 1 then some (false, cc)
    else if cc nb = 0 then rec nb cc
    else some (true, cc)

def dfsNode (adj : Adj) : Nat → Node → Coloring → Option (Bool × Coloring)
  | 0, _, _ => none
  | fuel + 1, node, c =>
    match (adj node).foldl
        (dfsStep (fun nb cc => dfsNode adj fuel nb cc))
        (some (true, Function.update c node 1)) with
    | none => none
    | some (false, c') => some (false, c')
    | some (true, c') => some (true, Function.update c' node 2)

/-- The outer loop of is_dag_dfs: for node in nodes: if color[node] == 0:
if not dfs(node): return False; finally return True. -/
def isDagLoop (adj : Adj) (fuel : Nat) : List Node → Coloring → Option (Bool × Coloring)
  | [], c => some (true, c)
  | n :: rest, c =>
    if c n = 0 then
      match dfsNode adj fuel n c with
      | none => none
      | some (false, c') => some (false, c')
      | some (true, c') => isDagLoop adj fuel rest c'
    else isDagLoop adj fuel rest c

/-- is_dag_dfs(nodes, edges) of dag_utils.py.  some b is the Python return
value; none would mean the embedding's fuel ran out (it never does). -/
def is_dag_dfs (nodes : List Node) (edges : List (Node × Node)) : Option Bool :=
  ((isDagLoop (buildAdjacency nodes edges) (nodes.length + 1) nodes (fun _ => 0)).map
    Prod.fst)

/-- One iteration of the neighbour loop of find_cycle_dfs' dfs helper.
rec is the recursive call (already carrying the extended path, Python's
path.copy() with node appended), path1 the current frame's path after
path.append(node).  An empty cycle returned by the recursion is falsy in
Python (if result:) and scanning continues. -/
def dfsCycStep (rec : Node → Coloring → Option (Option (List Node) × Coloring))
    (path1 : List Node) (acc : Option (Option (List Node) × Coloring))
    (nb : Node) : Option (Option (List Node) × Coloring) :=
  match acc with
  | none => none
  | some (some cyc, cc) => some (some cyc, cc)
  | some (none, cc) =>
    if cc nb = 1 then
      match path1.findIdx? (fun x => x == nb) with
      | some idx => some (some (path1.drop idx ++ [nb]), cc)
      | none => none
    else if cc nb = 0 then
      match rec nb cc with
      | none => none
      | some (some cyc, cc') =>
        if cyc.isEmpty then some (none, cc') else some (some cyc, cc')
      | some (none, cc') => some (none, cc')
    else some (none, cc)

/-- The recursive helper dfs of find_cycle_dfs.  path is the caller's path
(each recursive call receives path.copy() in Python, so the embedding simply
passes the extended list).  The accumulator is none (abnormal: fuel ran out
or path.index would have raised), some (some cyc, cc) (a cycle was returned)
or some (none, cc) (still scanning).  A recursive result that is an empty
list is falsy in Python (if result:) and scanning continues; returned cycles
are in fact never empty. -/
def dfsCyc (adj : Adj) : Nat → Node → List Node → Coloring →
    Option (Option (List Node) × Coloring)
  | 0, _, _, _ => none
  | fuel + 1, node, path, c =>
    match (adj node).foldl
        (dfsCycStep (fun nb cc => dfsCyc adj fuel nb (path ++ [node]) cc)
          (path ++ [node]))
        (some (none, Function.update c node 1)) with
    | none => none
    | some (some cyc, c') => some (some cyc, c')
    | some (none, c') => some (none, Function.update c' node 2)

/-- The outer loop of find_cycle_dfs: for node in nodes: if color[node] == 0:
cycle = dfs(node, []); if cycle: return cycle; finally return None.
(An empty cycle is falsy in Python, hence the isEmpty test.) -/
def findCycleLoop (adj : Adj) (fuel : Nat) :
    List Node → Coloring → Option (Option (List Node) × Coloring)
  | [], c => some (none, c)
  | n :: rest, c =>
    if c n = 0 then
      match dfsCyc adj fuel n [] c with
      | none => none
      | some (some cyc, c') =>
        if cyc.isEmpty then findCycleLoop adj fuel rest c'
        else some (some cyc, c')
      | some (none, c') => findCycleLoop adj fuel rest c'
    else findCycleLoop adj fuel rest c

/-- find_cycle_dfs(nodes, edges) of dag_utils.py.  some (some cyc) is a
returned cycle, some none is Python's None, none would mean the embedding's
fuel ran out or list.index raised (they never do). -/
def find_cycle_dfs (nodes : List Node) (edges : List (Node × Node)) :
    Option (Option (List Node)) :=
  ((findCycleLoop (buildAdjacency nodes edges) (nodes.length + 1) nodes (fun _ => 0)).map
    Prod.fst)

/-- One iteration of the neighbour loop of is_dag_topological's while loop:
indegree[neighbor] -= 1; if indegree[neighbor] == 0: queue.append(neighbor). -/
def kahnStep (p : (Node → Int) × List Node) (nb : Node) : (Node → Int) × List Node :=
  let d := p.1 nb - 1
  let ind := Function.update p.1 nb d
  if d = 0 then (ind, p.2 ++ [nb]) else (ind, p.2)

/-- The while loop of is_dag_topological: while queue: node = queue.pop()
(from the end); visited += 1; for each neighbour decrement its indegree and
enqueue it when the indegree reaches zero. -/
def kahnLoop (adj : Adj) : Nat → (Node → Int) → List Node → Nat → Option Nat
  | 0, _, _, _ => none
  | fuel + 1, indeg, queue, visited =>
    if h : queue = [] then some visited
    else
      let node := queue.getLast h
      let s := (adj node).foldl kahnStep (indeg, queue.dropLast)
      kahnLoop adj fuel s.1 s.2 (visited + 1)

/-- is_dag_topological(node_ids, edges) of main.py.  The initial queue lists
the zero-indegree keys of the indegree dict in insertion order (order of
first occurrence); the verdict is visited == len(node_ids). -/
def is_dag_topological (nodes : List Node) (edges : List (Node × Node)) : Option Bool :=
  let adj := buildAdjacency nodes edges
  let indeg := buildIndegree nodes edges
  let queue := (firstDedup nodes).filter (fun n => decide (indeg n = 0))
  ((kahnLoop adj (nodes.length + edges.length + 1) indeg queue 0).map
    (fun visited => decide (visited = nodes.length)))

/-! ### The specification side: directed cycles -/

/-- An edge of the supplied list whose endpoints are both declared nodes. -/
def ValidEdge (nodes : List Node) (edges : List (Node × Node)) (a b : Node) : Prop :=
  (a, b) ∈ edges ∧ a ∈ nodes ∧ b ∈ nodes

/-- A closed walk: at least one edge, consecutive elements joined by valid
edges, first element equal to the last. -/
def IsClosedWalk (nodes : List Node) (edges : List (Node × Node)) (l : List Node) : Prop :=
  2 ≤ l.length ∧ l.Chain' (ValidEdge nodes edges) ∧ l.head? = l.getLast?

/-- The graph of the declared nodes and the valid edges contains a directed
cycle (equivalently, a closed walk). -/
def HasCycle (nodes : List Node) (edges : List (Node × Node)) : Prop :=
  ∃ l, IsClosedWalk nodes edges l

/-! ### Characterizing the builders -/

/-- Membership in the kept-edge list. -/
theorem mem_validEdges {nodes : List Node} {edges : List (Node × Node)}
    {e : Node × Node} :
    e ∈ validEdges nodes edges ↔ e ∈ edges ∧ e.1 ∈ nodes ∧ e.2 ∈ nodes := by
  simp [validEdges, List.mem_filter, and_assoc]

theorem validEdges_cons (nodes : List Node) (e : Node × Node)
    (rest : List (Node × Node)) :
    validEdges nodes (e :: rest)
      = if e.1 ∈ nodes ∧ e.2 ∈ nodes then e :: validEdges nodes rest
        else validEdges nodes rest := by
  by_cases hv : e.1 ∈ nodes ∧ e.2 ∈ nodes
  · simp [validEdges, List.filter_cons, hv]
  · simp [validEdges, List.filter_cons, hv]

/-- The generalized fold of buildAdjacency. -/
theorem buildAdjacency_foldl (nodes : List Node) :
    ∀ (edges : List (Node × Node)) (adj0 : Adj) (u : Node),
      (edges.foldl
        (fun (adj : Adj) (e : Node × Node) =>
          if e.1 ∈ nodes ∧ e.2 ∈ nodes then
            Function.update adj e.1 (adj e.1 ++ [e.2])
          else adj) adj0) u
      = adj0 u ++ ((validEdges nodes edges).filter (fun e => decide (e.1 = u))).map Prod.snd := by
  intro edges
  induction edges with
  | nil => intro adj0 u; simp [validEdges]
  | cons e rest ih =>
    intro adj0 u
    by_cases hv : e.1 ∈ nodes ∧ e.2 ∈ nodes
    · by_cases hu : e.1 = u
      · subst hu
        simp [List.foldl_cons, ih, validEdges_cons, hv, List.filter_cons,
          Function.update_apply]
      · have hu' : u ≠ e.1 := Ne.symm hu
        simp [List.foldl_cons, ih, validEdges_cons, hv, List.filter_cons,
          Function.update_apply, hu, hu']
    · simp [List.foldl_cons, ih, validEdges_cons, hv]

/-- The adjacency list of u is the target list of the kept edges out of u. -/
theorem buildAdjacency_eq (nodes : List Node) (edges : List (Node × Node)) (u : Node) :
    buildAdjacency nodes edges u
      = ((validEdges nodes edges).filter (fun e => decide (e.1 = u))).map Prod.snd := by
  have h := buildAdjacency_foldl nodes edges (fun _ => []) u
  simpa [buildAdjacency] using h

/-- v is a neighbour of u exactly when (u, v) is a kept edge. -/
theorem mem_buildAdjacency {nodes : List Node} {edges : List (Node × Node)}
    {u v : Node} :
    v ∈ buildAdjacency nodes edges u ↔ ValidEdge nodes edges u v := by
  rw [buildAdjacency_eq]
  simp only [List.mem_map, List.mem_filter, mem_validEdges, ValidEdge,
    decide_eq_true_eq]
  constructor
  · rintro ⟨⟨a, b⟩, ⟨⟨he, h1, h2⟩, hu⟩, hv⟩
    simp only at hu hv
    subst hu; subst hv
    exact ⟨he, h1, h2⟩
  · rintro ⟨he, h1, h2⟩
    exact ⟨(u, v), ⟨⟨he, h1, h2⟩, rfl⟩, rfl⟩

/-- Every neighbour is a declared node. -/
theorem mem_nodes_of_mem_buildAdjacency {nodes : List Node}
    {edges : List (Node × Node)} {u v : Node}
    (h : v ∈ buildAdjacency nodes edges u) : v ∈ nodes :=
  (mem_buildAdjacency.mp h).2.2

/-- The generalized fold of buildIndegree. -/
theorem buildIndegree_foldl (nodes : List Node) :
    ∀ (edges : List (Node × Node)) (ind0 : Node → Int) (v : Node),
      (edges.foldl
        (fun (ind : Node → Int) (e : Node × Node) =>
          if e.1 ∈ nodes ∧ e.2 ∈ nodes then
            Function.update ind e.2 (ind e.2 + 1)
          else ind) ind0) v
      = ind0 v + ((validEdges nodes edges).filter (fun e => decide (e.2 = v))).length := by
  intro edges
  induction edges with
  | nil => intro ind0 v; simp [validEdges]
  | cons e rest ih =>
    intro ind0 v
    by_cases hv : e.1 ∈ nodes ∧ e.2 ∈ nodes
    · by_cases hu : e.2 = v
      · subst hu
        simp [List.foldl_cons, hv, ih, validEdges_cons, List.filter_cons,
          Function.update_apply]
        ring
      · have hu' : v ≠ e.2 := Ne.symm hu
        simp [List.foldl_cons, ih, validEdges_cons, hv, List.filter_cons,
          Function.update_apply, hu, hu']
    · simp [List.foldl_cons, ih, validEdges_cons, hv]

/-- The indegree of v counts the kept edges into v. -/
theorem buildIndegree_eq (nodes : List Node) (edges : List (Node × Node)) (v : Node) :
    buildIndegree nodes edges v
      = ((validEdges nodes edges).filter (fun e => decide (e.2 = v))).length := by
  have h := buildIndegree_foldl nodes edges (fun _ => 0) v
  simpa [buildIndegree] using h

/-! ### firstDedup -/

theorem mem_firstDedupAux :
    ∀ (l seen : List Node) (x : Node),
      x ∈ firstDedupAux l seen ↔ x ∈ l ∧ x ∉ seen := by
  intro l
  induction l with
  | nil => intro seen x; simp [firstDedupAux]
  | cons a l ih =>
    intro seen x
    by_cases ha : a ∈ seen
    · rw [firstDedupAux, if_pos ha, ih seen]
      simp only [List.mem_cons]
      constructor
      · rintro ⟨hx, hs⟩; exact ⟨Or.inr hx, hs⟩
      · rintro ⟨rfl | hx, hs⟩
        · exact absurd ha hs
        · exact ⟨hx, hs⟩
    · rw [firstDedupAux, if_neg ha]
      simp only [List.mem_cons, ih (a :: seen), List.mem_cons]
      constructor
      · rintro (rfl | ⟨hx, hs⟩)
        · exact ⟨Or.inl rfl, ha⟩
        · exact ⟨Or.inr hx, fun hc => hs (Or.inr hc)⟩
      · rintro ⟨rfl | hx, hs⟩
        · exact Or.inl rfl
        · by_cases hxa : x = a
          · exact Or.inl hxa
          · exact Or.inr ⟨hx, fun hc => (hc : x = a ∨ x ∈ seen).elim hxa hs⟩

theorem mem_firstDedup {l : List Node} {x : Node} :
    x ∈ firstDedup l ↔ x ∈ l := by
  simp [firstDedup, mem_firstDedupAux]

theorem nodup_firstDedupAux : ∀ (l seen : List Node), (firstDedupAux l seen).Nodup := by
  intro l
  induction l with
  | nil => intro seen; simp [firstDedupAux]
  | cons a l ih =>
    intro seen
    by_cases ha : a ∈ seen
    · simpa [firstDedupAux, if_pos ha] using ih seen
    · simp only [firstDedupAux, if_neg ha, List.nodup_cons]
      refine ⟨fun hc => ?_, ih (a :: seen)⟩
      exact ((mem_firstDedupAux l (a :: seen) a).mp hc).2 (List.mem_cons_self a seen)

theorem nodup_firstDedup (l : List Node) : (firstDedup l).Nodup :=
  nodup_firstDedupAux l []

theorem length_firstDedupAux_le : ∀ (l seen : List Node),
    (firstDedupAux l seen).length ≤ l.length := by
  intro l
  induction l with
  | nil => intro seen; simp [firstDedupAux]
  | cons a l ih =>
    intro seen
    by_cases ha : a ∈ seen
    · rw [firstDedupAux, if_pos ha]
      exact le_trans (ih seen) (Nat.le_succ _)
    · rw [firstDedupAux, if_neg ha]
      simpa using ih (a :: seen)

theorem length_firstDedup_le (l : List Node) : (firstDedup l).length ≤ l.length :=
  length_firstDedupAux_le l []

theorem firstDedupAux_eq_self : ∀ (l seen : List Node),
    l.Nodup → (∀ x ∈ seen, x ∉ l) → firstDedupAux l seen = l := by
  intro l
  induction l with
  | nil => intro seen _ _; rfl
  | cons a l ih =>
    intro seen hnd hs
    have ha : a ∉ seen := fun hc => hs a hc (List.mem_cons_self a l)
    rw [firstDedupAux, if_neg ha]
    congr 1
    refine ih (a :: seen) (List.Nodup.of_cons hnd) ?_
    intro x hx
    rcases List.mem_cons.mp hx with rfl | hxs
    · exact (List.nodup_cons.mp hnd).1
    · exact fun hc => hs x hxs (List.mem_cons_of_mem _ hc)

theorem firstDedup_eq_self {l : List Node} (h : l.Nodup) : firstDedup l = l :=
  firstDedupAux_eq_self l [] h (by simp)

theorem nodup_of_firstDedupAux_length : ∀ (l seen : List Node),
    (firstDedupAux l seen).length = l.length → l.Nodup ∧ ∀ x ∈ seen, x ∉ l := by
  intro l
  induction l with
  | nil => intro seen _; simp
  | cons a l ih =>
    intro seen h
    by_cases ha : a ∈ seen
    · exfalso
      rw [firstDedupAux, if_pos ha] at h
      have hle := length_firstDedupAux_le l seen
      simp only [List.length_cons] at h
      omega
    · rw [firstDedupAux, if_neg ha] at h
      simp only [List.length_cons] at h
      have h' : (firstDedupAux l (a :: seen)).length = l.length := by omega
      obtain ⟨hnd, hseen⟩ := ih (a :: seen) h'
      have hal : a ∉ l := hseen a (List.mem_cons_self a seen)
      refine ⟨List.nodup_cons.mpr ⟨hal, hnd⟩, ?_⟩
      intro x hx
      simp only [List.mem_cons, not_or]
      constructor
      · rintro rfl; exact ha hx
      · exact hseen x (List.mem_cons_of_mem _ hx)

theorem nodup_of_firstDedup_length {l : List Node}
    (h : (firstDedup l).length = l.length) : l.Nodup :=
  (nodup_of_firstDedupAux_length l [] h).1

/-! ### Closed walks -/

/-- Every element of a closed walk has a successor inside the walk. -/
theorem exists_succ_of_mem_closedWalk {nodes : List Node} {edges : List (Node × Node)}
    {l : List Node} {x : Node} (h : IsClosedWalk nodes edges l) (hx : x ∈ l) :
    ∃ y ∈ l, ValidEdge nodes edges x y := by
  obtain ⟨hlen, hchain, hhl⟩ := h
  obtain ⟨⟨i, hi⟩, hget⟩ := List.mem_iff_get.mp hx
  by_cases hnext : i + 1 < l.length
  · have hr := List.chain'_iff_get.mp hchain i (by omega)
    refine ⟨l.get ⟨i + 1, hnext⟩, List.get_mem l (i + 1) hnext, ?_⟩
    rwa [hget] at hr
  · -- x is the last element, hence also the head; use the head's successor
    have hi' : i = l.length - 1 := by omega
    have hne : 1 < l.length := by omega
    have hlast : l.getLast? = some x := by
      rw [List.getLast?_eq_getElem?, List.getElem?_eq_getElem (by omega)]
      rw [← hget, List.get_eq_getElem]
      simp [hi']
    have hhead : l.head? = some x := by rw [hhl]; exact hlast
    have hhead0 : l[0]? = some x := by rwa [List.head?_eq_getElem?] at hhead
    rw [List.getElem?_eq_getElem (by omega)] at hhead0
    have hx0 : l.get ⟨0, by omega⟩ = x := by
      rw [List.get_eq_getElem]; exact Option.some.inj hhead0
    have hr := List.chain'_iff_get.mp hchain 0 (by omega)
    refine ⟨l.get ⟨1, by omega⟩, List.get_mem l 1 (by omega), ?_⟩
    rwa [hx0] at hr

/-- Every element of a closed walk is a declared node. -/
theorem mem_nodes_of_mem_closedWalk {nodes : List Node} {edges : List (Node × Node)}
    {l : List Node} {x : Node} (h : IsClosedWalk nodes edges l) (hx : x ∈ l) :
    x ∈ nodes := by
  obtain ⟨y, _, he⟩ := exists_succ_of_mem_closedWalk h hx
  exact he.2.1

/-- Invariant of the DFS: no black node lies on a closed walk. -/
def BlackNoCycle (nodes : List Node) (edges : List (Node × Node)) (c : Coloring) : Prop :=
  ∀ l, IsClosedWalk nodes edges l → ∀ x ∈ l, c x ≠ 2

/-! ### Postconditions of the is_dag_dfs traversal -/

theorem dfsFold_none (rec : Node → Coloring → Option (Bool × Coloring)) :
    ∀ l : List Node, l.foldl (dfsStep rec) none = none := by
  intro l; induction l with
  | nil => rfl
  | cons nb rest ih => simpa [dfsStep] using ih

theorem dfsFold_false (rec : Node → Coloring → Option (Bool × Coloring)) :
    ∀ (l : List Node) (cc : Coloring),
      l.foldl (dfsStep rec) (some (false, cc)) = some (false, cc) := by
  intro l; induction l with
  | nil => intro cc; rfl
  | cons nb rest ih => intro cc; simpa [dfsStep] using ih cc

/-- The postcondition of one dfs call of is_dag_dfs on a white node:
only white nodes change colour, only declared nodes change colour, changed
colours stay in range, a successful call blackens its node and creates no
new gray nodes, and the no-black-node-on-a-cycle invariant is preserved. -/
def DfsPost (nodes : List Node) (edges : List (Node × Node)) (node : Node)
    (c : Coloring) (b : Bool) (c' : Coloring) : Prop :=
  (∀ x, c' x ≠ c x → c x = 0) ∧
  (∀ x, c' x ≠ c x → x ∈ nodes) ∧
  (∀ x, c' x ≠ c x → c' x ≤ 2) ∧
  (b = true → (∀ x, c' x = 1 → c x = 1) ∧ c' node = 2) ∧
  (BlackNoCycle nodes edges c → BlackNoCycle nodes edges c')

theorem DfsPost.black_stable {nodes : List Node} {edges : List (Node × Node)}
    {node : Node} {c : Coloring} {b : Bool} {c' : Coloring}
    (h : DfsPost nodes edges node c b c') {x : Node} (hx : c x = 2) : c' x = 2 := by
  by_cases hch : c' x = c x
  · rw [hch, hx]
  · exact absurd (h.1 x hch) (by rw [hx]; omega)

theorem DfsPost.color_le_two {nodes : List Node} {edges : List (Node × Node)}
    {node : Node} {c : Coloring} {b : Bool} {c' : Coloring}
    (h : DfsPost nodes edges node c b c') (hc : ∀ x, c x ≤ 2) : ∀ x, c' x ≤ 2 := by
  intro x
  by_cases hch : c' x = c x
  · rw [hch]; exact hc x
  · exact h.2.2.1 x hch

/-- The neighbour loop of is_dag_dfs, given the recursive call's
postcondition. -/
theorem dfsFold_post (nodes : List Node) (edges : List (Node × Node))
    (rec : Node → Coloring → Option (Bool × Coloring))
    (hrec : ∀ nb cc b cc', nb ∈ nodes → cc nb = 0 → (∀ x, cc x ≤ 2) →
      rec nb cc = some (b, cc') → DfsPost nodes edges nb cc b cc') :
    ∀ (l : List Node) (c : Coloring) (b : Bool) (c' : Coloring),
      (∀ nb ∈ l, nb ∈ nodes) → (∀ x, c x ≤ 2) →
      l.foldl (dfsStep rec) (some (true, c)) = some (b, c') →
      (∀ x, c' x ≠ c x → c x = 0) ∧
      (∀ x, c' x ≠ c x → x ∈ nodes) ∧
      (∀ x, c' x ≤ 2) ∧
      (b = true → (∀ x, c' x = 1 → c x = 1) ∧ ∀ nb ∈ l, c' nb = 2) ∧
      (BlackNoCycle nodes edges c → BlackNoCycle nodes edges c') := by
  intro l
  induction l with
  | nil =>
    intro c b c' _ hcb hfold
    simp only [List.foldl_nil, Option.some.injEq, Prod.mk.injEq] at hfold
    obtain ⟨hb, hc⟩ := hfold
    subst hb; subst hc
    exact ⟨fun x hx => absurd rfl hx, fun x hx => absurd rfl hx, hcb,
      fun _ => ⟨fun x hx => hx, by simp⟩, fun h => h⟩
  | cons nb rest ih =>
    intro c b c' hl hcb hfold
    have hnb : nb ∈ nodes := hl nb (List.mem_cons_self nb rest)
    have hrest : ∀ x ∈ rest, x ∈ nodes := fun x hx => hl x (List.mem_cons_of_mem _ hx)
    rw [List.foldl_cons] at hfold
    by_cases h1 : c nb = 1
    · rw [show dfsStep rec (some (true, c)) nb = some (false, c) by
        simp [dfsStep, h1]] at hfold
      rw [dfsFold_false] at hfold
      simp only [Option.some.injEq, Prod.mk.injEq] at hfold
      obtain ⟨hb, hc⟩ := hfold
      subst hb; subst hc
      exact ⟨fun x hx => absurd rfl hx, fun x hx => absurd rfl hx, hcb,
        by simp, fun h => h⟩
    · by_cases h0 : c nb = 0
      · rw [show dfsStep rec (some (true, c)) nb = rec nb c by
          simp [dfsStep, h1, h0]] at hfold
        match hr : rec nb c with
        | none => rw [hr, dfsFold_none] at hfold; exact absurd hfold (by simp)
        | some (false, cc) =>
          rw [hr, dfsFold_false] at hfold
          simp only [Option.some.injEq, Prod.mk.injEq] at hfold
          obtain ⟨hb, hc⟩ := hfold
          have hpost := hrec nb c false cc hnb h0 hcb hr
          subst hb
          rw [← hc]
          exact ⟨hpost.1, hpost.2.1, hpost.color_le_two hcb, by simp, hpost.2.2.2.2⟩
        | some (true, cc) =>
          rw [hr] at hfold
          have hpost := hrec nb c true cc hnb h0 hcb hr
          obtain ⟨p1, p2, p3, p4, p5⟩ := ih cc b c' hrest (hpost.color_le_two hcb) hfold
          refine ⟨?_, ?_, p3, ?_, fun h => p5 (hpost.2.2.2.2 h)⟩
          · intro x hx
            by_cases hmid : cc x = c x
            · rw [← hmid]; exact p1 x (by rwa [← hmid] at hx)
            · exact hpost.1 x hmid
          · intro x hx
            by_cases hmid : cc x = c x
            · exact p2 x (by rwa [← hmid] at hx)
            · exact hpost.2.1 x hmid
          · intro hb
            obtain ⟨q1, q2⟩ := p4 hb
            obtain ⟨r1, r2⟩ := hpost.2.2.2.1 rfl
            refine ⟨fun x hx => r1 x (q1 x hx), ?_⟩
            intro m hm
            rcases List.mem_cons.mp hm with rfl | hm'
            · by_cases hch : c' m = cc m
              · rw [hch]; exact r2
              · exact absurd (p1 m hch) (by rw [r2]; omega)
            · exact q2 m hm'
      · -- c nb is neither 0 nor 1: already done, skipped
        rw [show dfsStep rec (some (true, c)) nb = some (true, c) by
          simp [dfsStep, h1, h0]] at hfold
        obtain ⟨p1, p2, p3, p4, p5⟩ := ih c b c' hrest hcb hfold
        refine ⟨p1, p2, p3, ?_, p5⟩
        intro hb
        obtain ⟨q1, q2⟩ := p4 hb
        refine ⟨q1, ?_⟩
        intro m hm
        rcases List.mem_cons.mp hm with rfl | hm'
        · have h2 : c m = 2 := by have := hcb m; omega
          by_cases hch : c' m = c m
          · rw [hch]; exact h2
          · exact absurd (p1 m hch) (by omega)
        · exact q2 m hm'

/-- The postcondition of the dfs helper of is_dag_dfs, by induction on fuel. -/
theorem dfsNode_post (nodes : List Node) (edges : List (Node × Node)) (adj : Adj)
    (hadj : ∀ u v, v ∈ adj u ↔ ValidEdge nodes edges u v) :
    ∀ (fuel : Nat) (node : Node) (c : Coloring) (b : Bool) (c' : Coloring),
      node ∈ nodes → c node = 0 → (∀ x, c x ≤ 2) →
      dfsNode adj fuel node c = some (b, c') →
      DfsPost nodes edges node c b c' := by
  intro fuel
  induction fuel with
  | zero =>
    intro node c b c' _ _ _ h
    exact absurd h (by simp [dfsNode])
  | succ fuel ih =>
    intro node c b c' hnode h0 hcb h
    simp only [dfsNode] at h
    have hl : ∀ nb ∈ adj node, nb ∈ nodes :=
      fun nb hm => ((hadj node nb).mp hm).2.2
    have hc1b : ∀ x, Function.update c node 1 x ≤ 2 := by
      intro x
      rw [Function.update_apply]
      by_cases hx : x = node
      · simp [hx]
      · simp [hx]; exact hcb x
    have hBNC1 : BlackNoCycle nodes edges c → BlackNoCycle nodes edges (Function.update c node 1) := by
      intro hB l hw x hx
      rw [Function.update_apply]
      by_cases hxn : x = node
      · simp [hxn]
      · simp [hxn]; exact hB l hw x hx
    cases hfoldE : (adj node).foldl (dfsStep fun nb cc => dfsNode adj fuel nb cc)
        (some (true, Function.update c node 1)) with
    | none => rw [hfoldE] at h; simp at h
    | some p =>
      obtain ⟨b2, c2⟩ := p
      have hFold := dfsFold_post nodes edges (fun nb cc => dfsNode adj fuel nb cc)
        (fun nb cc bb cc' hm hw hbb hrun => ih nb cc bb cc' hm hw hbb hrun)
        (adj node) (Function.update c node 1) b2 c2 hl hc1b hfoldE
      obtain ⟨q1, q2, q3, q4, q5⟩ := hFold
      cases b2 with
      | false =>
        rw [hfoldE] at h
        simp only [Option.some.injEq, Prod.mk.injEq] at h
        obtain ⟨hb, hc⟩ := h
        subst hb
        rw [← hc]
        refine ⟨?_, ?_, ?_, by simp, ?_⟩
        · intro x hx
          by_cases hxn : x = node
          · subst hxn; exact h0
          · by_cases hmid : c2 x = Function.update c node 1 x
            · rw [hmid, Function.update_apply, if_neg hxn] at hx
              exact absurd rfl hx
            · have := q1 x hmid
              rwa [Function.update_apply, if_neg hxn] at this
        · intro x hx
          by_cases hxn : x = node
          · subst hxn; exact hnode
          · by_cases hmid : c2 x = Function.update c node 1 x
            · rw [hmid, Function.update_apply, if_neg hxn] at hx
              exact absurd rfl hx
            · exact q2 x hmid
        · intro x _; exact q3 x
        · intro hB; exact q5 (hBNC1 hB)
      | true =>
        rw [hfoldE] at h
        simp only [Option.some.injEq, Prod.mk.injEq] at h
        obtain ⟨hb, hc⟩ := h
        subst hb
        rw [← hc]
        have hc2node : c2 node = 1 := by
          by_cases hmid : c2 node = Function.update c node 1 node
          · rw [hmid, Function.update_apply, if_pos rfl]
          · have := q1 node hmid
            rw [Function.update_apply, if_pos rfl] at this
            omega
        obtain ⟨g1, g2⟩ := q4 rfl
        refine ⟨?_, ?_, ?_, ?_, ?_⟩
        · intro x hx
          by_cases hxn : x = node
          · subst hxn; exact h0
          · rw [Function.update_apply, if_neg hxn] at hx
            by_cases hmid : c2 x = Function.update c node 1 x
            · rw [hmid, Function.update_apply, if_neg hxn] at hx
              exact absurd rfl hx
            · have := q1 x hmid
              rwa [Function.update_apply, if_neg hxn] at this
        · intro x hx
          by_cases hxn : x = node
          · subst hxn; exact hnode
          · rw [Function.update_apply, if_neg hxn] at hx
            by_cases hmid : c2 x = Function.update c node 1 x
            · rw [hmid, Function.update_apply, if_neg hxn] at hx
              exact absurd rfl hx
            · exact q2 x hmid
        · intro x _
          rw [Function.update_apply]
          by_cases hxn : x = node
          · simp [hxn]
          · simp [hxn]; exact q3 x
        · intro _
          constructor
          · intro x hx
            rw [Function.update_apply] at hx
            by_cases hxn : x = node
            · rw [if_pos hxn] at hx; omega
            · rw [if_neg hxn] at hx
              have := g1 x hx
              rwa [Function.update_apply, if_neg hxn] at this
          · rw [Function.update_apply, if_pos rfl]
        · intro hB
          have hB2 : BlackNoCycle nodes edges c2 := q5 (hBNC1 hB)
          intro l hw x hx
          rw [Function.update_apply]
          by_cases hxn : x = node
          · rw [if_pos hxn]
            subst hxn
            intro _
            obtain ⟨y, hy, he⟩ := exists_succ_of_mem_closedWalk hw hx
            have hyadj : y ∈ adj x := (hadj x y).mpr he
            exact hB2 l hw y hy (g2 y hyadj)
          · rw [if_neg hxn]
            exact hB2 l hw x hx

/-- Postcondition of the outer loop of is_dag_dfs, starting from a state with
no gray nodes. -/
theorem isDagLoop_post (nodes : List Node) (edges : List (Node × Node)) (adj : Adj)
    (hadj : ∀ u v, v ∈ adj u ↔ ValidEdge nodes edges u v) (fuel : Nat) :
    ∀ (l : List Node) (c : Coloring) (b : Bool) (c' : Coloring),
      (∀ n ∈ l, n ∈ nodes) → (∀ x, c x ≤ 2) → (∀ x, c x ≠ 1) →
      isDagLoop adj fuel l c = some (b, c') →
      (∀ x, c' x ≠ c x → c x = 0) ∧
      (∀ x, c' x ≤ 2) ∧
      (BlackNoCycle nodes edges c → BlackNoCycle nodes edges c') ∧
      (b = true → ∀ x, c' x ≠ 1) ∧
      (b = true → ∀ n ∈ l, c' n = 2) := by
  intro l
  induction l with
  | nil =>
    intro c b c' _ hcb hng hrun
    simp only [isDagLoop, Option.some.injEq, Prod.mk.injEq] at hrun
    obtain ⟨hb, hc⟩ := hrun
    subst hb
    rw [← hc]
    exact ⟨fun x hx => absurd rfl hx, hcb, fun h => h, fun _ => hng, by simp⟩
  | cons n rest ih =>
    intro c b c' hl hcb hng hrun
    have hn : n ∈ nodes := hl n (List.mem_cons_self n rest)
    have hrest : ∀ x ∈ rest, x ∈ nodes := fun x hx => hl x (List.mem_cons_of_mem _ hx)
    rw [isDagLoop] at hrun
    by_cases h0 : c n = 0
    · rw [if_pos h0] at hrun
      cases hdfs : dfsNode adj fuel n c with
      | none => rw [hdfs] at hrun; simp at hrun
      | some p =>
        obtain ⟨b1, c1⟩ := p
        have hpost := dfsNode_post nodes edges adj hadj fuel n c b1 c1 hn h0 hcb hdfs
        cases b1 with
        | false =>
          rw [hdfs] at hrun
          simp only [Option.some.injEq, Prod.mk.injEq] at hrun
          obtain ⟨hb, hc⟩ := hrun
          subst hb
          rw [← hc]
          exact ⟨hpost.1, hpost.color_le_two hcb, hpost.2.2.2.2, by simp, by simp⟩
        | true =>
          rw [hdfs] at hrun
          obtain ⟨g1, g2⟩ := hpost.2.2.2.1 rfl
          have hng1 : ∀ x, c1 x ≠ 1 := fun x hx => hng x (g1 x hx)
          obtain ⟨p0, p1, p2, p3, p4⟩ :=
            ih c1 b c' hrest (hpost.color_le_two hcb) hng1 hrun
          refine ⟨?_, p1, fun hB => p2 (hpost.2.2.2.2 hB), p3, ?_⟩
          · intro x hx
            by_cases hmid : c1 x = c x
            · rw [← hmid]; exact p0 x (by rwa [← hmid] at hx)
            · exact hpost.1 x hmid
          · intro hb m hm
            rcases List.mem_cons.mp hm with rfl | hm'
            · by_cases hch : c' m = c1 m
              · rw [hch]; exact g2
              · exact absurd (p0 m hch) (by rw [g2]; omega)
            · exact p4 hb m hm'
    · rw [if_neg h0] at hrun
      obtain ⟨p0, p1, p2, p3, p4⟩ := ih c b c' hrest hcb hng hrun
      refine ⟨p0, p1, p2, p3, ?_⟩
      intro hb m hm
      rcases List.mem_cons.mp hm with rfl | hm'
      · have h2 : c m = 2 := by have := hcb m; have := hng m; omega
        by_cases hch : c' m = c m
        · rw [hch]; exact h2
        · exact absurd (p0 m hch) (by omega)
      · exact p4 hb m hm'

/-- If is_dag_dfs answers true, the graph has no cycle. -/
theorem is_dag_dfs_true_of_no_cycle_aux {nodes : List Node}
    {edges : List (Node × Node)}
    (h : is_dag_dfs nodes edges = some true) : ¬ HasCycle nodes edges := by
  rintro ⟨l, hw⟩
  unfold is_dag_dfs at h
  cases hrun : isDagLoop (buildAdjacency nodes edges) (nodes.length + 1) nodes
      (fun _ => 0) with
  | none => rw [hrun] at h; simp at h
  | some p =>
    obtain ⟨b, c'⟩ := p
    rw [hrun] at h
    simp only [Option.map_some', Option.some.injEq] at h
    have hb : b = true := h
    subst hb
    have hadj : ∀ u v, v ∈ buildAdjacency nodes edges u ↔ ValidEdge nodes edges u v :=
      fun u v => mem_buildAdjacency
    obtain ⟨p0, p1, p2, p3, p4⟩ := isDagLoop_post nodes edges (buildAdjacency nodes edges)
      hadj (nodes.length + 1) nodes (fun _ => 0) true c'
      (fun n hn => hn) (fun x => by simp) (fun x => by simp) hrun
    have hBNC : BlackNoCycle nodes edges c' := p2 (fun l' _ x _ => by simp)
    have hlen : 2 ≤ l.length := hw.1
    have hne : l ≠ [] := by
      intro hnil; rw [hnil] at hlen; simp at hlen
    obtain ⟨x, hx⟩ := List.exists_mem_of_ne_nil l hne
    have hxn : x ∈ nodes := mem_nodes_of_mem_closedWalk hw hx
    exact hBNC l hw x hx (p4 rfl x hxn)

/-! ### The cycle found by find_cycle_dfs -/

/-- What dfs of find_cycle_dfs returns when it reports a cycle: a nonempty
closed walk along kept edges, through declared nodes, visiting no interior
node twice. -/
def GoodCycle (nodes : List Node) (edges : List (Node × Node)) (cyc : List Node) : Prop :=
  cyc ≠ [] ∧ 2 ≤ cyc.length ∧ cyc.head? = cyc.getLast? ∧
  cyc.Chain' (ValidEdge nodes edges) ∧ cyc.dropLast.Nodup ∧ ∀ x ∈ cyc, x ∈ nodes

theorem GoodCycle.closedWalk {nodes : List Node} {edges : List (Node × Node)}
    {cyc : List Node} (h : GoodCycle nodes edges cyc) : IsClosedWalk nodes edges cyc :=
  ⟨h.2.1, h.2.2.2.1, h.2.2.1⟩

theorem findIdx?_some_spec : ∀ (l : List Node) (p : Node → Bool) (s i : Nat),
    List.findIdx? p l s = some i →
    ∃ j, i = s + j ∧ ∃ h : j < l.length, p (l.get ⟨j, h⟩) = true := by
  intro l
  induction l with
  | nil => intro p s i h; simp [List.findIdx?] at h
  | cons x xs ih =>
    intro p s i h
    rw [List.findIdx?_cons] at h
    by_cases hp : p x = true
    · rw [if_pos hp] at h
      refine ⟨0, by simpa using h.symm, by simp, by simpa using hp⟩
    · rw [if_neg hp] at h
      obtain ⟨j, hij, hj, hpj⟩ := ih p (s + 1) i h
      exact ⟨j + 1, by omega, by simpa using hj, by simpa using hpj⟩

theorem findIdx?_isSome_of_mem : ∀ (l : List Node) (p : Node → Bool) (s : Nat),
    (∃ x ∈ l, p x = true) → (List.findIdx? p l s).isSome := by
  intro l
  induction l with
  | nil => intro p s h; simp at h
  | cons x xs ih =>
    intro p s h
    rw [List.findIdx?_cons]
    by_cases hp : p x = true
    · simp [hp]
    · rw [if_neg hp]
      obtain ⟨y, hy, hpy⟩ := h
      rcases List.mem_cons.mp hy with rfl | hy'
      · exact absurd hpy hp
      · exact ih p (s + 1) ⟨y, hy', hpy⟩

theorem dfsCycFold_none
    (rec : Node → Coloring → Option (Option (List Node) × Coloring))
    (path1 : List Node) :
    ∀ l : List Node, l.foldl (dfsCycStep rec path1) none = none := by
  intro l; induction l with
  | nil => rfl
  | cons nb rest ih => simpa [dfsCycStep] using ih

theorem dfsCycFold_found
    (rec : Node → Coloring → Option (Option (List Node) × Coloring))
    (path1 : List Node) :
    ∀ (l : List Node) (cyc : List Node) (cc : Coloring),
      l.foldl (dfsCycStep rec path1) (some (some cyc, cc)) = some (some cyc, cc) := by
  intro l; induction l with
  | nil => intro cyc cc; rfl
  | cons nb rest ih => intro cyc cc; simpa [dfsCycStep] using ih cyc cc

/-- The cycle assembled at a back edge is a GoodCycle: path1 is the gray
path (no duplicates, chained by kept edges, ending at the current node),
nb a gray neighbour of that node. -/
theorem backEdge_goodCycle {nodes : List Node} {edges : List (Node × Node)}
    {path1 : List Node} {node nb : Node} {idx : Nat}
    (hpath : ∀ x ∈ path1, x ∈ nodes)
    (hnodup : path1.Nodup)
    (hchain : path1.Chain' (ValidEdge nodes edges))
    (hlast : path1.getLast? = some node)
    (hedge : ValidEdge nodes edges node nb)
    (hfind : path1.findIdx? (fun x => x == nb) = some idx) :
    GoodCycle nodes edges (path1.drop idx ++ [nb]) := by
  obtain ⟨j, hij, hj, hpj⟩ := findIdx?_some_spec path1 (fun x => x == nb) 0 idx hfind
  have hidx : idx = j := by omega
  subst hidx
  have hget : path1.get ⟨idx, hj⟩ = nb := by
    simpa using hpj
  have hdropne : path1.drop idx ≠ [] := by
    intro hnil
    have := List.length_drop idx path1
    rw [hnil] at this
    simp at this
    omega
  have hhead : (path1.drop idx).head? = some nb := by
    rw [List.head?_drop, List.getElem?_eq_getElem hj]
    rw [← hget, List.get_eq_getElem]
  refine ⟨by simp, ?_, ?_, ?_, ?_, ?_⟩
  · have h1 : 1 ≤ (path1.drop idx).length := by
      cases hd : path1.drop idx with
      | nil => exact absurd hd hdropne
      | cons a t => simp
    simp only [List.length_append, List.length_singleton]
    omega
  · rw [List.getLast?_concat]
    rw [List.head?_append_of_ne_nil _ hdropne]
    -- head of the append is the head of the nonempty drop
    rw [hhead]
  · rw [List.chain'_append]
    refine ⟨List.Chain'.drop hchain idx, List.chain'_singleton nb, ?_⟩
    intro x hx y hy
    simp only [List.head?_cons, Option.mem_def, Option.some.injEq] at hy
    subst hy
    rw [List.getLast?_drop] at hx
    have : ¬ path1.length ≤ idx := by omega
    rw [if_neg this, hlast] at hx
    simp only [Option.mem_def, Option.some.injEq] at hx
    subst hx
    exact hedge
  · rw [List.dropLast_concat]
    exact List.Nodup.sublist (List.drop_sublist idx path1) hnodup
  · intro x hx
    rcases List.mem_append.mp hx with hx' | hx'
    · exact hpath x (List.mem_of_mem_drop hx')
    · rw [List.mem_singleton] at hx'
      subst hx'
      exact hedge.2.2

/-- Postcondition of one dfs call of find_cycle_dfs on a white node. -/
def CycPost (nodes : List Node) (edges : List (Node × Node)) (node : Node)
    (c : Coloring) (res : Option (List Node)) (c' : Coloring) : Prop :=
  (∀ x, c' x ≠ c x → c x = 0) ∧
  (∀ x, c' x ≠ c x → x ∈ nodes) ∧
  (∀ x, c' x ≠ c x → c' x ≤ 2) ∧
  (res = none → (∀ x, c' x = 1 → c x = 1) ∧ c' node = 2) ∧
  (∀ cyc, res = some cyc → GoodCycle nodes edges cyc)

theorem CycPost.colors_le_two {nodes : List Node} {edges : List (Node × Node)}
    {node : Node} {c : Coloring} {res : Option (List Node)} {c' : Coloring}
    (h : CycPost nodes edges node c res c') (hc : ∀ x, c x ≤ 2) : ∀ x, c' x ≤ 2 := by
  intro x
  by_cases hch : c' x = c x
  · rw [hch]; exact hc x
  · exact h.2.2.1 x hch

/-- The neighbour loop of find_cycle_dfs' dfs helper. -/
theorem dfsCycFold_post (nodes : List Node) (edges : List (Node × Node))
    (path1 : List Node) (node : Node)
    (rec : Node → Coloring → Option (Option (List Node) × Coloring))
    (hpath : ∀ x ∈ path1, x ∈ nodes)
    (hnodup : path1.Nodup)
    (hchain : path1.Chain' (ValidEdge nodes edges))
    (hlast : path1.getLast? = some node)
    (hrec : ∀ nb cc res cc', ValidEdge nodes edges node nb → cc nb = 0 →
      (∀ x, cc x ≤ 2) → (∀ x, cc x = 1 ↔ x ∈ path1) →
      rec nb cc = some (res, cc') → CycPost nodes edges nb cc res cc') :
    ∀ (l : List Node) (c : Coloring) (res : Option (List Node)) (c' : Coloring),
      (∀ nb ∈ l, ValidEdge nodes edges node nb) →
      (∀ x, c x ≤ 2) → (∀ x, c x = 1 ↔ x ∈ path1) →
      l.foldl (dfsCycStep rec path1) (some (none, c)) = some (res, c') →
      (∀ x, c' x ≠ c x → c x = 0) ∧
      (∀ x, c' x ≠ c x → x ∈ nodes) ∧
      (∀ x, c' x ≤ 2) ∧
      (res = none → ∀ x, c' x = 1 → c x = 1) ∧
      (∀ cyc, res = some cyc → GoodCycle nodes edges cyc) := by
  intro l
  induction l with
  | nil =>
    intro c res c' _ hcb _ hfold
    simp only [List.foldl_nil, Option.some.injEq, Prod.mk.injEq] at hfold
    obtain ⟨hr, hc⟩ := hfold
    subst hr
    rw [← hc]
    exact ⟨fun x hx => absurd rfl hx, fun x hx => absurd rfl hx, hcb,
      fun _ x hx => hx, by simp⟩
  | cons nb rest ih =>
    intro c res c' hl hcb hgray hfold
    have hnb : ValidEdge nodes edges node nb := hl nb (List.mem_cons_self nb rest)
    have hrest : ∀ x ∈ rest, ValidEdge nodes edges node x :=
      fun x hx => hl x (List.mem_cons_of_mem _ hx)
    rw [List.foldl_cons] at hfold
    by_cases h1 : c nb = 1
    · -- back edge: assemble the cycle from the gray path
      have hmem : nb ∈ path1 := (hgray nb).mp h1
      have hsome : (path1.findIdx? (fun x => x == nb)).isSome :=
        findIdx?_isSome_of_mem path1 _ 0 ⟨nb, hmem, by simp⟩
      obtain ⟨idx, hfind⟩ := Option.isSome_iff_exists.mp hsome
      rw [show dfsCycStep rec path1 (some (none, c)) nb
          = some (some (path1.drop idx ++ [nb]), c) by
        simp [dfsCycStep, h1, hfind]] at hfold
      rw [dfsCycFold_found] at hfold
      simp only [Option.some.injEq, Prod.mk.injEq] at hfold
      obtain ⟨hr, hc⟩ := hfold
      subst hr
      rw [← hc]
      refine ⟨fun x hx => absurd rfl hx, fun x hx => absurd rfl hx, hcb, by simp, ?_⟩
      intro cyc hcyc
      obtain ⟨hcyc'⟩ := hcyc
      exact backEdge_goodCycle hpath hnodup hchain hlast hnb hfind
    · by_cases h0 : c nb = 0
      · rw [show dfsCycStep rec path1 (some (none, c)) nb
            = (match rec nb c with
               | none => none
               | some (some cyc, cc') =>
                 if cyc.isEmpty then some (none, cc') else some (some cyc, cc')
               | some (none, cc') => some (none, cc')) by
          simp [dfsCycStep, h1, h0]] at hfold
        match hr : rec nb c with
        | none =>
          rw [hr, dfsCycFold_none] at hfold
          exact absurd hfold (by simp)
        | some (some cyc, cc) =>
          have hpost := hrec nb c (some cyc) cc hnb h0 hcb hgray hr
          have hgood : GoodCycle nodes edges cyc := hpost.2.2.2.2 cyc rfl
          have hne : cyc.isEmpty = false := by
            cases hcy : cyc with
            | nil => exact absurd hcy hgood.1
            | cons a t => simp
          rw [hr] at hfold
          simp only [hne, Bool.false_eq_true, if_false] at hfold
          rw [dfsCycFold_found] at hfold
          simp only [Option.some.injEq, Prod.mk.injEq] at hfold
          obtain ⟨hrr, hc⟩ := hfold
          subst hrr
          rw [← hc]
          refine ⟨hpost.1, hpost.2.1, hpost.colors_le_two hcb, by simp, ?_⟩
          intro cyc' hcyc'
          obtain ⟨h⟩ := hcyc'
          exact hgood
        | some (none, cc) =>
          have hpost := hrec nb c none cc hnb h0 hcb hgray hr
          obtain ⟨g1, g2⟩ := hpost.2.2.2.1 rfl
          rw [hr] at hfold
          simp only at hfold
          have hgray' : ∀ x, cc x = 1 ↔ x ∈ path1 := by
            intro x
            constructor
            · intro hx; exact (hgray x).mp (g1 x hx)
            · intro hx
              have hcx : c x = 1 := (hgray x).mpr hx
              by_cases hch : cc x = c x
              · rw [hch]; exact hcx
              · exact absurd (hpost.1 x hch) (by omega)
          obtain ⟨p1, p2, p3, p4, p5⟩ := ih cc res c' hrest (hpost.colors_le_two hcb) hgray' hfold
          refine ⟨?_, ?_, p3, ?_, p5⟩
          · intro x hx
            by_cases hmid : cc x = c x
            · rw [← hmid]; exact p1 x (by rwa [← hmid] at hx)
            · exact hpost.1 x hmid
          · intro x hx
            by_cases hmid : cc x = c x
            · exact p2 x (by rwa [← hmid] at hx)
            · exact hpost.2.1 x hmid
          · intro hres x hx
            have hcc : cc x = 1 := p4 hres x hx
            exact g1 x hcc
      · rw [show dfsCycStep rec path1 (some (none, c)) nb = some (none, c) by
          simp [dfsCycStep, h1, h0]] at hfold
        exact ih c res c' hrest hcb hgray hfold

/-- Postcondition of the dfs helper of find_cycle_dfs, by induction on fuel:
called on a white node whose gray set is exactly the carried path. -/
theorem dfsCyc_post (nodes : List Node) (edges : List (Node × Node)) (adj : Adj)
    (hadj : ∀ u v, v ∈ adj u ↔ ValidEdge nodes edges u v) :
    ∀ (fuel : Nat) (node : Node) (path : List Node) (c : Coloring)
      (res : Option (List Node)) (c' : Coloring),
      node ∈ nodes → c node = 0 → (∀ x, c x ≤ 2) →
      (∀ x, c x = 1 ↔ x ∈ path) →
      path.Nodup →
      (path ++ [node]).Chain' (ValidEdge nodes edges) →
      (∀ x ∈ path, x ∈ nodes) →
      dfsCyc adj fuel node path c = some (res, c') →
      CycPost nodes edges node c res c' := by
  intro fuel
  induction fuel with
  | zero =>
    intro node path c res c' _ _ _ _ _ _ _ h
    exact absurd h (by simp [dfsCyc])
  | succ fuel ih =>
    intro node path c res c' hnode h0 hcb hgray hnodup hchain hpath h
    simp only [dfsCyc] at h
    have hnpath : node ∉ path := fun hc => by
      have := (hgray node).mpr hc
      omega
    have hpath1 : ∀ x ∈ path ++ [node], x ∈ nodes := by
      intro x hx
      rcases List.mem_append.mp hx with hx' | hx'
      · exact hpath x hx'
      · rw [List.mem_singleton] at hx'; subst hx'; exact hnode
    have hnodup1 : (path ++ [node]).Nodup := by
      simp [List.nodup_append, hnodup, hnpath]
    have hlast1 : (path ++ [node]).getLast? = some node := List.getLast?_concat path
    have hgray1 : ∀ x, Function.update c node 1 x = 1 ↔ x ∈ path ++ [node] := by
      intro x
      rw [Function.update_apply]
      by_cases hxn : x = node
      · subst hxn; simp
      · rw [if_neg hxn]
        rw [hgray x]
        simp [hxn]
    have hc1b : ∀ x, Function.update c node 1 x ≤ 2 := by
      intro x
      rw [Function.update_apply]
      by_cases hxn : x = node
      · simp [hxn]
      · simp [hxn]; exact hcb x
    have hrec : ∀ nb cc rr cc', ValidEdge nodes edges node nb → cc nb = 0 →
        (∀ x, cc x ≤ 2) → (∀ x, cc x = 1 ↔ x ∈ path ++ [node]) →
        dfsCyc adj fuel nb (path ++ [node]) cc = some (rr, cc') →
        CycPost nodes edges nb cc rr cc' := by
      intro nb cc rr cc' hedge hw hbb hgg hrun
      have hchain2 : ((path ++ [node]) ++ [nb]).Chain' (ValidEdge nodes edges) := by
        rw [List.chain'_append]
        refine ⟨hchain, List.chain'_singleton nb, ?_⟩
        intro x hx y hy
        simp only [List.head?_cons, Option.mem_def, Option.some.injEq] at hy
        subst hy
        rw [hlast1] at hx
        simp only [Option.mem_def, Option.some.injEq] at hx
        subst hx
        exact hedge
      exact ih nb (path ++ [node]) cc rr cc' hedge.2.2 hw hbb hgg hnodup1 hchain2 hpath1 hrun
    cases hfoldE : (adj node).foldl
        (dfsCycStep (fun nb cc => dfsCyc adj fuel nb (path ++ [node]) cc) (path ++ [node]))
        (some (none, Function.update c node 1)) with
    | none => rw [hfoldE] at h; simp at h
    | some p =>
      obtain ⟨res2, c2⟩ := p
      have hFold := dfsCycFold_post nodes edges (path ++ [node]) node
        (fun nb cc => dfsCyc adj fuel nb (path ++ [node]) cc)
        hpath1 hnodup1 hchain hlast1 hrec
        (adj node) (Function.update c node 1) res2 c2
        (fun nb hm => (hadj node nb).mp hm) hc1b hgray1 hfoldE
      obtain ⟨q1, q2, q3, q4, q5⟩ := hFold
      cases res2 with
      | some cyc =>
        rw [hfoldE] at h
        simp only [Option.some.injEq, Prod.mk.injEq] at h
        obtain ⟨hr, hc⟩ := h
        subst hr
        rw [← hc]
        refine ⟨?_, ?_, ?_, by simp, fun cyc' hcyc' => by
          obtain ⟨hh⟩ := hcyc'; exact q5 cyc rfl⟩
        · intro x hx
          by_cases hxn : x = node
          · subst hxn; exact h0
          · by_cases hmid : c2 x = Function.update c node 1 x
            · rw [hmid, Function.update_apply, if_neg hxn] at hx
              exact absurd rfl hx
            · have := q1 x hmid
              rwa [Function.update_apply, if_neg hxn] at this
        · intro x hx
          by_cases hxn : x = node
          · subst hxn; exact hnode
          · by_cases hmid : c2 x = Function.update c node 1 x
            · rw [hmid, Function.update_apply, if_neg hxn] at hx
              exact absurd rfl hx
            · exact q2 x hmid
        · intro x _; exact q3 x
      | none =>
        rw [hfoldE] at h
        simp only [Option.some.injEq, Prod.mk.injEq] at h
        obtain ⟨hr, hc⟩ := h
        subst hr
        rw [← hc]
        have hc2node : c2 node = 1 := by
          by_cases hmid : c2 node = Function.update c node 1 node
          · rw [hmid, Function.update_apply, if_pos rfl]
          · have := q1 node hmid
            rw [Function.update_apply, if_pos rfl] at this
            omega
        refine ⟨?_, ?_, ?_, ?_, by simp⟩
        · intro x hx
          by_cases hxn : x = node
          · subst hxn; exact h0
          · rw [Function.update_apply, if_neg hxn] at hx
            by_cases hmid : c2 x = Function.update c node 1 x
            · rw [hmid, Function.update_apply, if_neg hxn] at hx
              exact absurd rfl hx
            · have := q1 x hmid
              rwa [Function.update_apply, if_neg hxn] at this
        · intro x hx
          by_cases hxn : x = node
          · subst hxn; exact hnode
          · rw [Function.update_apply, if_neg hxn] at hx
            by_cases hmid : c2 x = Function.update c node 1 x
            · rw [hmid, Function.update_apply, if_neg hxn] at hx
              exact absurd rfl hx
            · exact q2 x hmid
        · intro x _
          rw [Function.update_apply]
          by_cases hxn : x = node
          · simp [hxn]
          · simp [hxn]; exact q3 x
        · intro _
          constructor
          · intro x hx
            rw [Function.update_apply] at hx
            by_cases hxn : x = node
            · rw [if_pos hxn] at hx; omega
            · rw [if_neg hxn] at hx
              have := q4 rfl x hx
              rwa [Function.update_apply, if_neg hxn] at this
          · rw [Function.update_apply, if_pos rfl]

/-! ### find_cycle_dfs and is_dag_dfs run in lockstep -/

/-- Relation between a find_cycle_dfs result and an is_dag_dfs result at the
same point of the traversal: both abnormal, or no cycle found and true with
the same colours, or a nonempty cycle found and false with the same colours. -/
def SimRel (rF : Option (Option (List Node) × Coloring))
    (rD : Option (Bool × Coloring)) : Prop :=
  match rF, rD with
  | none, none => True
  | some (none, c1), some (true, c2) => c1 = c2
  | some (some cyc, c1), some (false, c2) => c1 = c2 ∧ cyc ≠ []
  | _, _ => False

/-- The two neighbour loops stay in lockstep. -/
theorem simFold (nodes : List Node) (edges : List (Node × Node))
    (path1 : List Node) (node : Node)
    (recF : Node → Coloring → Option (Option (List Node) × Coloring))
    (recD : Node → Coloring → Option (Bool × Coloring))
    (hrecpost : ∀ nb cc res cc', ValidEdge nodes edges node nb → cc nb = 0 →
      (∀ x, cc x ≤ 2) → (∀ x, cc x = 1 ↔ x ∈ path1) →
      recF nb cc = some (res, cc') → CycPost nodes edges nb cc res cc')
    (hrecsim : ∀ nb cc, ValidEdge nodes edges node nb → cc nb = 0 →
      (∀ x, cc x ≤ 2) → (∀ x, cc x = 1 ↔ x ∈ path1) →
      SimRel (recF nb cc) (recD nb cc)) :
    ∀ (l : List Node) (c : Coloring),
      (∀ nb ∈ l, ValidEdge nodes edges node nb) →
      (∀ x, c x ≤ 2) → (∀ x, c x = 1 ↔ x ∈ path1) →
      SimRel (l.foldl (dfsCycStep recF path1) (some (none, c)))
        (l.foldl (dfsStep recD) (some (true, c))) := by
  intro l
  induction l with
  | nil => intro c _ _ _; simp only [List.foldl_nil]; exact rfl
  | cons nb rest ih =>
    intro c hl hcb hgray
    have hnb : ValidEdge nodes edges node nb := hl nb (List.mem_cons_self nb rest)
    have hrest : ∀ x ∈ rest, ValidEdge nodes edges node x :=
      fun x hx => hl x (List.mem_cons_of_mem _ hx)
    rw [List.foldl_cons, List.foldl_cons]
    by_cases h1 : c nb = 1
    · have hmem : nb ∈ path1 := (hgray nb).mp h1
      have hsome : (path1.findIdx? (fun x => x == nb)).isSome :=
        findIdx?_isSome_of_mem path1 _ 0 ⟨nb, hmem, by simp⟩
      obtain ⟨idx, hfind⟩ := Option.isSome_iff_exists.mp hsome
      rw [show dfsCycStep recF path1 (some (none, c)) nb
          = some (some (path1.drop idx ++ [nb]), c) by
        simp [dfsCycStep, h1, hfind]]
      rw [show dfsStep recD (some (true, c)) nb = some (false, c) by
        simp [dfsStep, h1]]
      rw [dfsCycFold_found, dfsFold_false]
      exact ⟨rfl, by simp⟩
    · by_cases h0 : c nb = 0
      · rw [show dfsCycStep recF path1 (some (none, c)) nb
            = (match recF nb c with
               | none => none
               | some (some cyc, cc') =>
                 if cyc.isEmpty then some (none, cc') else some (some cyc, cc')
               | some (none, cc') => some (none, cc')) by
          simp [dfsCycStep, h1, h0]]
        rw [show dfsStep recD (some (true, c)) nb = recD nb c by
          simp [dfsStep, h1, h0]]
        have hsim := hrecsim nb c hnb h0 hcb hgray
        match hF : recF nb c, hD : recD nb c with
        | none, none =>
          rw [dfsCycFold_none, dfsFold_none]; exact trivial
        | none, some (bb, cc) => rw [hF, hD] at hsim; exact absurd hsim (by simp [SimRel])
        | some (none, cc), none => rw [hF, hD] at hsim; exact absurd hsim (by simp [SimRel])
        | some (some cyc, cc), none => rw [hF, hD] at hsim; exact absurd hsim (by simp [SimRel])
        | some (none, cc), some (false, cc2) =>
          rw [hF, hD] at hsim; exact absurd hsim (by simp [SimRel])
        | some (some cyc, cc), some (true, cc2) =>
          rw [hF, hD] at hsim; exact absurd hsim (by simp [SimRel])
        | some (none, cc), some (true, cc2) =>
          rw [hF, hD] at hsim
          have hcc : cc = cc2 := hsim
          subst hcc
          have hpost := hrecpost nb c none cc hnb h0 hcb hgray hF
          obtain ⟨g1, _⟩ := hpost.2.2.2.1 rfl
          have hgray' : ∀ x, cc x = 1 ↔ x ∈ path1 := by
            intro x
            constructor
            · intro hx; exact (hgray x).mp (g1 x hx)
            · intro hx
              have hcx : c x = 1 := (hgray x).mpr hx
              by_cases hch : cc x = c x
              · rw [hch]; exact hcx
              · exact absurd (hpost.1 x hch) (by omega)
          exact ih cc hrest (hpost.colors_le_two hcb) hgray'
        | some (some cyc, cc), some (false, cc2) =>
          rw [hF, hD] at hsim
          obtain ⟨hcc, hne⟩ := hsim
          subst hcc
          have hnee : cyc.isEmpty = false := by
            cases hcy : cyc with
            | nil => exact absurd hcy hne
            | cons a t => simp
          simp only [hnee, Bool.false_eq_true, if_false]
          rw [dfsCycFold_found, dfsFold_false]
          exact ⟨rfl, hne⟩
      · rw [show dfsCycStep recF path1 (some (none, c)) nb = some (none, c) by
          simp [dfsCycStep, h1, h0]]
        rw [show dfsStep recD (some (true, c)) nb = some (true, c) by
          simp [dfsStep, h1, h0]]
        exact ih c hrest hcb hgray

/-- The two dfs helpers run in lockstep. -/
theorem dfsCyc_sim (nodes : List Node) (edges : List (Node × Node)) (adj : Adj)
    (hadj : ∀ u v, v ∈ adj u ↔ ValidEdge nodes edges u v) :
    ∀ (fuel : Nat) (node : Node) (path : List Node) (c : Coloring),
      node ∈ nodes → c node = 0 → (∀ x, c x ≤ 2) →
      (∀ x, c x = 1 ↔ x ∈ path) →
      path.Nodup →
      (path ++ [node]).Chain' (ValidEdge nodes edges) →
      (∀ x ∈ path, x ∈ nodes) →
      SimRel (dfsCyc adj fuel node path c) (dfsNode adj fuel node c) := by
  intro fuel
  induction fuel with
  | zero => intro node path c _ _ _ _ _ _ _; exact trivial
  | succ fuel ih =>
    intro node path c hnode h0 hcb hgray hnodup hchain hpath
    have hnpath : node ∉ path := fun hc => by
      have := (hgray node).mpr hc
      omega
    have hpath1 : ∀ x ∈ path ++ [node], x ∈ nodes := by
      intro x hx
      rcases List.mem_append.mp hx with hx' | hx'
      · exact hpath x hx'
      · rw [List.mem_singleton] at hx'; subst hx'; exact hnode
    have hnodup1 : (path ++ [node]).Nodup := by
      simp [List.nodup_append, hnodup, hnpath]
    have hlast1 : (path ++ [node]).getLast? = some node := List.getLast?_concat path
    have hgray1 : ∀ x, Function.update c node 1 x = 1 ↔ x ∈ path ++ [node] := by
      intro x
      rw [Function.update_apply]
      by_cases hxn : x = node
      · subst hxn; simp
      · rw [if_neg hxn, hgray x]; simp [hxn]
    have hc1b : ∀ x, Function.update c node 1 x ≤ 2 := by
      intro x
      rw [Function.update_apply]
      by_cases hxn : x = node
      · simp [hxn]
      · simp [hxn]; exact hcb x
    have hchain2 : ∀ nb, ValidEdge nodes edges node nb →
        ((path ++ [node]) ++ [nb]).Chain' (ValidEdge nodes edges) := by
      intro nb hedge
      rw [List.chain'_append]
      refine ⟨hchain, List.chain'_singleton nb, ?_⟩
      intro x hx y hy
      simp only [List.head?_cons, Option.mem_def, Option.some.injEq] at hy
      subst hy
      rw [hlast1] at hx
      simp only [Option.mem_def, Option.some.injEq] at hx
      subst hx
      exact hedge
    have hrecpost : ∀ nb cc res cc', ValidEdge nodes edges node nb → cc nb = 0 →
        (∀ x, cc x ≤ 2) → (∀ x, cc x = 1 ↔ x ∈ path ++ [node]) →
        dfsCyc adj fuel nb (path ++ [node]) cc = some (res, cc') →
        CycPost nodes edges nb cc res cc' := by
      intro nb cc res cc' hedge hw hbb hgg hrun
      exact dfsCyc_post nodes edges adj hadj fuel nb (path ++ [node]) cc res cc'
        hedge.2.2 hw hbb hgg hnodup1 (hchain2 nb hedge) hpath1 hrun
    have hrecsim : ∀ nb cc, ValidEdge nodes edges node nb → cc nb = 0 →
        (∀ x, cc x ≤ 2) → (∀ x, cc x = 1 ↔ x ∈ path ++ [node]) →
        SimRel (dfsCyc adj fuel nb (path ++ [node]) cc) (dfsNode adj fuel nb cc) := by
      intro nb cc hedge hw hbb hgg
      exact ih nb (path ++ [node]) cc hedge.2.2 hw hbb hgg hnodup1
        (hchain2 nb hedge) hpath1
    have hsim := simFold nodes edges (path ++ [node]) node
      (fun nb cc => dfsCyc adj fuel nb (path ++ [node]) cc)
      (fun nb cc => dfsNode adj fuel nb cc)
      hrecpost hrecsim (adj node) (Function.update c node 1)
      (fun nb hm => (hadj node nb).mp hm) hc1b hgray1
    simp only [dfsCyc, dfsNode]
    match hF : (adj node).foldl
        (dfsCycStep (fun nb cc => dfsCyc adj fuel nb (path ++ [node]) cc) (path ++ [node]))
        (some (none, Function.update c node 1)),
      hD : (adj node).foldl (dfsStep fun nb cc => dfsNode adj fuel nb cc)
        (some (true, Function.update c node 1)) with
    | none, none => exact trivial
    | none, some (bb, cc) => rw [hF, hD] at hsim; exact absurd hsim (by simp [SimRel])
    | some (none, cc), none => rw [hF, hD] at hsim; exact absurd hsim (by simp [SimRel])
    | some (some cyc, cc), none => rw [hF, hD] at hsim; exact absurd hsim (by simp [SimRel])
    | some (none, cc), some (false, cc2) =>
      rw [hF, hD] at hsim; exact absurd hsim (by simp [SimRel])
    | some (some cyc, cc), some (true, cc2) =>
      rw [hF, hD] at hsim; exact absurd hsim (by simp [SimRel])
    | some (none, cc), some (true, cc2) =>
      rw [hF, hD] at hsim
      have hcc : cc = cc2 := hsim
      subst hcc
      exact rfl
    | some (some cyc, cc), some (false, cc2) =>
      rw [hF, hD] at hsim
      obtain ⟨hcc, hne⟩ := hsim
      subst hcc
      exact ⟨rfl, hne⟩

/-- The two outer loops run in lockstep (from a state with no gray nodes). -/
theorem loopSim (nodes : List Node) (edges : List (Node × Node)) (adj : Adj)
    (hadj : ∀ u v, v ∈ adj u ↔ ValidEdge nodes edges u v) (fuel : Nat) :
    ∀ (l : List Node) (c : Coloring),
      (∀ n ∈ l, n ∈ nodes) → (∀ x, c x ≤ 2) → (∀ x, c x ≠ 1) →
      SimRel (findCycleLoop adj fuel l c) (isDagLoop adj fuel l c) := by
  intro l
  induction l with
  | nil => intro c _ _ _; exact rfl
  | cons n rest ih =>
    intro c hl hcb hng
    have hn : n ∈ nodes := hl n (List.mem_cons_self n rest)
    have hrest : ∀ x ∈ rest, x ∈ nodes := fun x hx => hl x (List.mem_cons_of_mem _ hx)
    rw [findCycleLoop, isDagLoop]
    by_cases h0 : c n = 0
    · rw [if_pos h0, if_pos h0]
      have hgray0 : ∀ x, c x = 1 ↔ x ∈ ([] : List Node) := by
        intro x; simp [hng x]
      have hchain0 : (([] : List Node) ++ [n]).Chain' (ValidEdge nodes edges) := by
        simp
      have hsim := dfsCyc_sim nodes edges adj hadj fuel n [] c hn h0 hcb hgray0
        (by simp) hchain0 (by simp)
      match hF : dfsCyc adj fuel n [] c, hD : dfsNode adj fuel n c with
      | none, none => exact trivial
      | none, some (bb, cc) => rw [hF, hD] at hsim; exact absurd hsim (by simp [SimRel])
      | some (none, cc), none => rw [hF, hD] at hsim; exact absurd hsim (by simp [SimRel])
      | some (some cyc, cc), none => rw [hF, hD] at hsim; exact absurd hsim (by simp [SimRel])
      | some (none, cc), some (false, cc2) =>
        rw [hF, hD] at hsim; exact absurd hsim (by simp [SimRel])
      | some (some cyc, cc), some (true, cc2) =>
        rw [hF, hD] at hsim; exact absurd hsim (by simp [SimRel])
      | some (none, cc), some (true, cc2) =>
        rw [hF, hD] at hsim
        have hcc : cc = cc2 := hsim
        subst hcc
        have hpost := dfsCyc_post nodes edges adj hadj fuel n [] c none cc hn h0 hcb
          hgray0 (by simp) hchain0 (by simp) hF
        obtain ⟨g1, _⟩ := hpost.2.2.2.1 rfl
        have hng' : ∀ x, cc x ≠ 1 := fun x hx => hng x (g1 x hx)
        exact ih cc hrest (hpost.colors_le_two hcb) hng'
      | some (some cyc, cc), some (false, cc2) =>
        rw [hF, hD] at hsim
        obtain ⟨hcc, hne⟩ := hsim
        subst hcc
        have hnee : cyc.isEmpty = false := by
          cases hcy : cyc with
          | nil => exact absurd hcy hne
          | cons a t => simp
        simp only [hnee, Bool.false_eq_true, if_false]
        exact ⟨rfl, hne⟩
    · rw [if_neg h0, if_neg h0]
      exact ih c hrest hcb hng

/-- Any cycle reported by the outer loop of find_cycle_dfs is a GoodCycle. -/
theorem findCycleLoop_good (nodes : List Node) (edges : List (Node × Node)) (adj : Adj)
    (hadj : ∀ u v, v ∈ adj u ↔ ValidEdge nodes edges u v) (fuel : Nat) :
    ∀ (l : List Node) (c : Coloring) (res : Option (List Node)) (c' : Coloring),
      (∀ n ∈ l, n ∈ nodes) → (∀ x, c x ≤ 2) → (∀ x, c x ≠ 1) →
      findCycleLoop adj fuel l c = some (res, c') →
      ∀ cyc, res = some cyc → GoodCycle nodes edges cyc := by
  intro l
  induction l with
  | nil =>
    intro c res c' _ _ _ hrun cyc hres
    simp only [findCycleLoop, Option.some.injEq, Prod.mk.injEq] at hrun
    rw [hres] at hrun
    simp at hrun
  | cons n rest ih =>
    intro c res c' hl hcb hng hrun cyc hres
    have hn : n ∈ nodes := hl n (List.mem_cons_self n rest)
    have hrest : ∀ x ∈ rest, x ∈ nodes := fun x hx => hl x (List.mem_cons_of_mem _ hx)
    rw [findCycleLoop] at hrun
    by_cases h0 : c n = 0
    · rw [if_pos h0] at hrun
      have hgray0 : ∀ x, c x = 1 ↔ x ∈ ([] : List Node) := by
        intro x; simp [hng x]
      have hchain0 : (([] : List Node) ++ [n]).Chain' (ValidEdge nodes edges) := by
        simp
      cases hF : dfsCyc adj fuel n [] c with
      | none => rw [hF] at hrun; simp at hrun
      | some p =>
        obtain ⟨r1, c1⟩ := p
        have hpost := dfsCyc_post nodes edges adj hadj fuel n [] c r1 c1 hn h0 hcb
          hgray0 (by simp) hchain0 (by simp) hF
        cases r1 with
        | none =>
          rw [hF] at hrun
          obtain ⟨g1, _⟩ := hpost.2.2.2.1 rfl
          have hng' : ∀ x, c1 x ≠ 1 := fun x hx => hng x (g1 x hx)
          exact ih c1 res c' hrest (hpost.colors_le_two hcb) hng' hrun cyc hres
        | some cyc1 =>
          rw [hF] at hrun
          have hgood : GoodCycle nodes edges cyc1 := hpost.2.2.2.2 cyc1 rfl
          have hnee : cyc1.isEmpty = false := by
            cases hcy : cyc1 with
            | nil => exact absurd hcy hgood.1
            | cons a t => simp
          simp only [hnee, Bool.false_eq_true, if_false] at hrun
          simp only [Option.some.injEq, Prod.mk.injEq] at hrun
          obtain ⟨hr, _⟩ := hrun
          rw [← hr] at hres
          obtain ⟨hh⟩ := hres
          exact hgood
    · rw [if_neg h0] at hrun
      exact ih c res c' hrest hcb hng hrun cyc hres

/-! ### Totality: the fuel chosen by the entry points suffices -/

/-- Number of white (unvisited) nodes of the universe U. -/
def whiteCount (U : List Node) (c : Coloring) : Nat :=
  (U.filter (fun x => decide (c x = 0))).length

theorem whiteCount_le_of_imp {U : List Node} {c c' : Coloring}
    (h : ∀ x, c' x = 0 → c x = 0) : whiteCount U c' ≤ whiteCount U c := by
  induction U with
  | nil => simp [whiteCount]
  | cons a U ih =>
    simp only [whiteCount, List.filter_cons]
    by_cases ha' : c' a = 0
    · rw [if_pos (by simpa using ha'), if_pos (by simpa using h a ha')]
      simpa [whiteCount] using ih
    · rw [if_neg (by simpa using ha')]
      by_cases ha : c a = 0
      · rw [if_pos (by simpa using ha)]
        simp only [List.length_cons]
        exact le_trans ih (Nat.le_succ _)
      · rw [if_neg (by simpa using ha)]
        exact ih

theorem whiteCount_update_lt {U : List Node} {c : Coloring} {node : Node}
    (hmem : node ∈ U) (h0 : c node = 0) :
    whiteCount U (Function.update c node 1) < whiteCount U c := by
  induction U with
  | nil => simp at hmem
  | cons a U ih =>
    simp only [whiteCount, List.filter_cons]
    by_cases han : a = node
    · subst han
      rw [if_neg (by simp [Function.update_apply]), if_pos (by simpa using h0)]
      simp only [List.length_cons]
      have hle : whiteCount U (Function.update c a 1) ≤ whiteCount U c := by
        apply whiteCount_le_of_imp
        intro x hx
        rw [Function.update_apply] at hx
        by_cases hxa : x = a
        · rw [if_pos hxa] at hx; omega
        · rwa [if_neg hxa] at hx
      simp only [whiteCount] at hle
      omega
    · have hmem' : node ∈ U := by
        rcases List.mem_cons.mp hmem with h | h
        · exact absurd h.symm han
        · exact h
      have hupd : Function.update c node 1 a = c a := by
        rw [Function.update_apply, if_neg han]
      by_cases ha : c a = 0
      · rw [if_pos (by simp [hupd, ha]), if_pos (by simpa using ha)]
        simpa [whiteCount] using ih hmem'
      · rw [if_neg (by simp [hupd, ha]), if_neg (by simpa using ha)]
        exact ih hmem'

theorem dfsFold_whiteshrink
    (rec : Node → Coloring → Option (Bool × Coloring))
    (hrec : ∀ nb cc b cc', rec nb cc = some (b, cc') → ∀ x, cc' x = 0 → cc x = 0) :
    ∀ (l : List Node) (c : Coloring) (b : Bool) (c' : Coloring),
      l.foldl (dfsStep rec) (some (true, c)) = some (b, c') →
      ∀ x, c' x = 0 → c x = 0 := by
  intro l
  induction l with
  | nil =>
    intro c b c' hfold
    simp only [List.foldl_nil, Option.some.injEq, Prod.mk.injEq] at hfold
    rw [← hfold.2]
    exact fun x hx => hx
  | cons nb rest ih =>
    intro c b c' hfold
    rw [List.foldl_cons] at hfold
    by_cases h1 : c nb = 1
    · rw [show dfsStep rec (some (true, c)) nb = some (false, c) by
        simp [dfsStep, h1], dfsFold_false] at hfold
      simp only [Option.some.injEq, Prod.mk.injEq] at hfold
      rw [← hfold.2]
      exact fun x hx => hx
    · by_cases h0 : c nb = 0
      · rw [show dfsStep rec (some (true, c)) nb = rec nb c by
          simp [dfsStep, h1, h0]] at hfold
        match hr : rec nb c with
        | none => rw [hr, dfsFold_none] at hfold; exact absurd hfold (by simp)
        | some (false, cc) =>
          rw [hr, dfsFold_false] at hfold
          simp only [Option.some.injEq, Prod.mk.injEq] at hfold
          rw [← hfold.2]
          exact hrec nb c false cc hr
        | some (true, cc) =>
          rw [hr] at hfold
          exact fun x hx => hrec nb c true cc hr x (ih cc b c' hfold x hx)
      · rw [show dfsStep rec (some (true, c)) nb = some (true, c) by
          simp [dfsStep, h1, h0]] at hfold
        exact ih c b c' hfold

theorem dfsNode_whiteshrink (adj : Adj) :
    ∀ (fuel : Nat) (node : Node) (c : Coloring) (b : Bool) (c' : Coloring),
      dfsNode adj fuel node c = some (b, c') → ∀ x, c' x = 0 → c x = 0 := by
  intro fuel
  induction fuel with
  | zero => intro node c b c' h; exact absurd h (by simp [dfsNode])
  | succ fuel ih =>
    intro node c b c' h
    simp only [dfsNode] at h
    cases hfoldE : (adj node).foldl (dfsStep fun nb cc => dfsNode adj fuel nb cc)
        (some (true, Function.update c node 1)) with
    | none => rw [hfoldE] at h; simp at h
    | some p =>
      obtain ⟨b2, c2⟩ := p
      rw [hfoldE] at h
      have hshrink := dfsFold_whiteshrink (fun nb cc => dfsNode adj fuel nb cc)
        (fun nb cc bb cc' hr => ih nb cc bb cc' hr) (adj node)
        (Function.update c node 1) b2 c2 hfoldE
      intro x hx
      have hupd : ∀ y, Function.update c node 1 y = 0 → c y = 0 := by
        intro y hy
        rw [Function.update_apply] at hy
        by_cases hyn : y = node
        · rw [if_pos hyn] at hy; omega
        · rwa [if_neg hyn] at hy
      cases b2 with
      | false =>
        simp only [Option.some.injEq, Prod.mk.injEq] at h
        rw [← h.2] at hx
        exact hupd x (hshrink x hx)
      | true =>
        simp only [Option.some.injEq, Prod.mk.injEq] at h
        rw [← h.2] at hx
        rw [Function.update_apply] at hx
        by_cases hxn : x = node
        · rw [if_pos hxn] at hx; omega
        · rw [if_neg hxn] at hx
          exact hupd x (hshrink x hx)

theorem dfsFold_mono
    (recA recB : Node → Coloring → Option (Bool × Coloring))
    (hAB : ∀ nb cc r, recA nb cc = some r → recB nb cc = some r) :
    ∀ (l : List Node) (c : Coloring) (r : Bool × Coloring),
      l.foldl (dfsStep recA) (some (true, c)) = some r →
      l.foldl (dfsStep recB) (some (true, c)) = some r := by
  intro l
  induction l with
  | nil => intro c r h; exact h
  | cons nb rest ih =>
    intro c r h
    rw [List.foldl_cons] at h ⊢
    by_cases h1 : c nb = 1
    · rw [show dfsStep recA (some (true, c)) nb = some (false, c) by
        simp [dfsStep, h1], dfsFold_false] at h
      rw [show dfsStep recB (some (true, c)) nb = some (false, c) by
        simp [dfsStep, h1], dfsFold_false]
      exact h
    · by_cases h0 : c nb = 0
      · rw [show dfsStep recA (some (true, c)) nb = recA nb c by
          simp [dfsStep, h1, h0]] at h
        rw [show dfsStep recB (some (true, c)) nb = recB nb c by
          simp [dfsStep, h1, h0]]
        match hr : recA nb c with
        | none => rw [hr, dfsFold_none] at h; exact absurd h (by simp)
        | some (false, cc) =>
          rw [hr, dfsFold_false] at h
          rw [hAB nb c (false, cc) hr, dfsFold_false]
          exact h
        | some (true, cc) =>
          rw [hr] at h
          rw [hAB nb c (true, cc) hr]
          exact ih cc r h
      · rw [show dfsStep recA (some (true, c)) nb = some (true, c) by
          simp [dfsStep, h1, h0]] at h
        rw [show dfsStep recB (some (true, c)) nb = some (true, c) by
          simp [dfsStep, h1, h0]]
        exact ih c r h

theorem dfsNode_mono (adj : Adj) :
    ∀ (fuel : Nat) (node : Node) (c : Coloring) (r : Bool × Coloring),
      dfsNode adj fuel node c = some r →
      dfsNode adj (fuel + 1) node c = some r := by
  intro fuel
  induction fuel with
  | zero => intro node c r h; exact absurd h (by simp [dfsNode])
  | succ fuel ih =>
    intro node c r h
    simp only [dfsNode] at h
    cases hfoldE : (adj node).foldl (dfsStep fun nb cc => dfsNode adj fuel nb cc)
        (some (true, Function.update c node 1)) with
    | none => rw [hfoldE] at h; simp at h
    | some p =>
      rw [hfoldE] at h
      have hB := dfsFold_mono (fun nb cc => dfsNode adj fuel nb cc)
        (fun nb cc => dfsNode adj (fuel + 1) nb cc)
        (fun nb cc rr hr => ih nb cc rr hr) (adj node)
        (Function.update c node 1) p hfoldE
      have hgoal : dfsNode adj (fuel + 1 + 1) node c
          = (match (adj node).foldl (dfsStep fun nb cc => dfsNode adj (fuel + 1) nb cc)
              (some (true, Function.update c node 1)) with
            | none => none
            | some (false, c') => some (false, c')
            | some (true, c') => some (true, Function.update c' node 2)) := rfl
      rw [hgoal, hB]
      exact h

theorem dfsNode_mono_le (adj : Adj) {fuel fuel' : Nat} (hle : fuel ≤ fuel') :
    ∀ (node : Node) (c : Coloring) (r : Bool × Coloring),
      dfsNode adj fuel node c = some r → dfsNode adj fuel' node c = some r := by
  induction fuel' with
  | zero =>
    intro node c r h
    have : fuel = 0 := by omega
    subst this
    exact h
  | succ fuel' ih =>
    intro node c r h
    by_cases heq : fuel = fuel' + 1
    · subst heq; exact h
    · exact dfsNode_mono adj fuel' node c r (ih (by omega) node c r h)

/-- The neighbour loop cannot run out of fuel when enough fuel remains for
the white nodes. -/
theorem dfsFold_suff (adj : Adj) (U : List Node)
    (_hU : ∀ u v, v ∈ adj u → v ∈ U) (fuel : Nat)
    (hrecsuff : ∀ nb cc, nb ∈ U → cc nb = 0 → whiteCount U cc < fuel →
      (dfsNode adj fuel nb cc).isSome) :
    ∀ (l : List Node) (c : Coloring),
      (∀ nb ∈ l, nb ∈ U) → whiteCount U c < fuel →
      (l.foldl (dfsStep fun nb cc => dfsNode adj fuel nb cc) (some (true, c))).isSome := by
  intro l
  induction l with
  | nil => intro c _ _; simp
  | cons nb rest ih =>
    intro c hl hwc
    have hnb : nb ∈ U := hl nb (List.mem_cons_self nb rest)
    have hrest : ∀ x ∈ rest, x ∈ U := fun x hx => hl x (List.mem_cons_of_mem _ hx)
    rw [List.foldl_cons]
    by_cases h1 : c nb = 1
    · rw [show dfsStep (fun nb cc => dfsNode adj fuel nb cc) (some (true, c)) nb
          = some (false, c) by simp [dfsStep, h1], dfsFold_false]
      simp
    · by_cases h0 : c nb = 0
      · rw [show dfsStep (fun nb cc => dfsNode adj fuel nb cc) (some (true, c)) nb
            = dfsNode adj fuel nb c by simp [dfsStep, h1, h0]]
        have hsome := hrecsuff nb c hnb h0 hwc
        match hr : dfsNode adj fuel nb c with
        | none => rw [hr] at hsome; simp at hsome
        | some (false, cc) => rw [dfsFold_false]; simp
        | some (true, cc) =>
          have hshrink := dfsNode_whiteshrink adj fuel nb c true cc hr
          exact ih cc hrest (lt_of_le_of_lt (whiteCount_le_of_imp hshrink) hwc)
      · rw [show dfsStep (fun nb cc => dfsNode adj fuel nb cc) (some (true, c)) nb
            = some (true, c) by simp [dfsStep, h1, h0]]
        exact ih c hrest hwc

/-- dfs of is_dag_dfs cannot run out of fuel when called on a white node with
more fuel than there are white nodes. -/
theorem dfsNode_suff (adj : Adj) (U : List Node)
    (hU : ∀ u v, v ∈ adj u → v ∈ U) :
    ∀ (fuel : Nat) (node : Node) (c : Coloring),
      node ∈ U → c node = 0 → whiteCount U c < fuel →
      (dfsNode adj fuel node c).isSome := by
  intro fuel
  induction fuel with
  | zero => intro node c _ _ h; omega
  | succ fuel ih =>
    intro node c hnode h0 hwc
    have hwc1 : whiteCount U (Function.update c node 1) < fuel := by
      have := whiteCount_update_lt hnode h0
      omega
    have hfold := dfsFold_suff adj U hU fuel ih (adj node)
      (Function.update c node 1) (fun nb hm => hU node nb hm) hwc1
    simp only [dfsNode]
    match hF : (adj node).foldl (dfsStep fun nb cc => dfsNode adj fuel nb cc)
        (some (true, Function.update c node 1)) with
    | none => rw [hF] at hfold; simp at hfold
    | some (false, cc) => simp
    | some (true, cc) => simp

/-- The outer loop of is_dag_dfs cannot run out of fuel. -/
theorem isDagLoop_suff (adj : Adj) (U : List Node)
    (hU : ∀ u v, v ∈ adj u → v ∈ U) (fuel : Nat) :
    ∀ (l : List Node) (c : Coloring),
      (∀ n ∈ l, n ∈ U) → whiteCount U c < fuel →
      (isDagLoop adj fuel l c).isSome := by
  intro l
  induction l with
  | nil => intro c _ _; simp [isDagLoop]
  | cons n rest ih =>
    intro c hl hwc
    have hn : n ∈ U := hl n (List.mem_cons_self n rest)
    have hrest : ∀ x ∈ rest, x ∈ U := fun x hx => hl x (List.mem_cons_of_mem _ hx)
    rw [isDagLoop]
    by_cases h0 : c n = 0
    · rw [if_pos h0]
      have hsome := dfsNode_suff adj U hU fuel n c hn h0 hwc
      match hr : dfsNode adj fuel n c with
      | none => rw [hr] at hsome; simp at hsome
      | some (false, cc) => simp
      | some (true, cc) =>
        have hshrink := dfsNode_whiteshrink adj fuel n c true cc hr
        exact ih cc hrest (lt_of_le_of_lt (whiteCount_le_of_imp hshrink) hwc)
    · rw [if_neg h0]
      exact ih c hrest hwc

/-- is_dag_dfs always answers: its fuel suffices on every input. -/
theorem is_dag_dfs_isSome (nodes : List Node) (edges : List (Node × Node)) :
    (is_dag_dfs nodes edges).isSome := by
  unfold is_dag_dfs
  have hU : ∀ u v, v ∈ buildAdjacency nodes edges u → v ∈ firstDedup nodes :=
    fun u v hm => mem_firstDedup.mpr (mem_nodes_of_mem_buildAdjacency hm)
  have hwc : whiteCount (firstDedup nodes) (fun _ => 0) < nodes.length + 1 := by
    have h1 : whiteCount (firstDedup nodes) (fun _ => 0) = (firstDedup nodes).length := by
      simp [whiteCount]
    rw [h1]
    have := length_firstDedup_le nodes
    omega
  have hsome := isDagLoop_suff (buildAdjacency nodes edges) (firstDedup nodes) hU
    (nodes.length + 1) nodes (fun _ => 0)
    (fun n hn => mem_firstDedup.mpr hn) hwc
  match hr : isDagLoop (buildAdjacency nodes edges) (nodes.length + 1) nodes (fun _ => 0) with
  | none => rw [hr] at hsome; simp at hsome
  | some p => simp

/-- find_cycle_dfs always answers (by lockstep with is_dag_dfs). -/
theorem find_cycle_dfs_isSome (nodes : List Node) (edges : List (Node × Node)) :
    (find_cycle_dfs nodes edges).isSome := by
  have hsim := loopSim nodes edges (buildAdjacency nodes edges)
    (fun u v => mem_buildAdjacency) (nodes.length + 1) nodes (fun _ => 0)
    (fun n hn => hn) (fun x => by simp) (fun x => by simp)
  have hD := is_dag_dfs_isSome nodes edges
  unfold is_dag_dfs at hD
  unfold find_cycle_dfs
  match hF : findCycleLoop (buildAdjacency nodes edges) (nodes.length + 1) nodes
      (fun _ => 0),
    hDD : isDagLoop (buildAdjacency nodes edges) (nodes.length + 1) nodes
      (fun _ => 0) with
  | none, none => rw [hDD] at hD; simp at hD
  | none, some p => rw [hF, hDD] at hsim; exact absurd hsim (by cases p with
      | mk b c => cases b <;> simp [SimRel])
  | some p, none => simp
  | some p, some q => simp

/-! ### Fuel monotonicity and white-shrinking for find_cycle_dfs -/

theorem dfsCycFold_mono
    (recA recB : Node → Coloring → Option (Option (List Node) × Coloring))
    (path1 : List Node)
    (hAB : ∀ nb cc r, recA nb cc = some r → recB nb cc = some r) :
    ∀ (l : List Node) (c : Coloring) (r : Option (List Node) × Coloring),
      l.foldl (dfsCycStep recA path1) (some (none, c)) = some r →
      l.foldl (dfsCycStep recB path1) (some (none, c)) = some r := by
  intro l
  induction l with
  | nil => intro c r h; exact h
  | cons nb rest ih =>
    intro c r h
    rw [List.foldl_cons] at h ⊢
    by_cases h1 : c nb = 1
    · cases hfind : path1.findIdx? (fun x => x == nb) with
      | none =>
        rw [show dfsCycStep recA path1 (some (none, c)) nb = none by
          simp [dfsCycStep, h1, hfind], dfsCycFold_none] at h
        exact absurd h (by simp)
      | some idx =>
        rw [show dfsCycStep recA path1 (some (none, c)) nb
            = some (some (path1.drop idx ++ [nb]), c) by
          simp [dfsCycStep, h1, hfind], dfsCycFold_found] at h
        rw [show dfsCycStep recB path1 (some (none, c)) nb
            = some (some (path1.drop idx ++ [nb]), c) by
          simp [dfsCycStep, h1, hfind], dfsCycFold_found]
        exact h
    · by_cases h0 : c nb = 0
      · rw [show dfsCycStep recA path1 (some (none, c)) nb
            = (match recA nb c with
               | none => none
               | some (some cyc, cc') =>
                 if cyc.isEmpty then some (none, cc') else some (some cyc, cc')
               | some (none, cc') => some (none, cc')) by
          simp [dfsCycStep, h1, h0]] at h
        rw [show dfsCycStep recB path1 (some (none, c)) nb
            = (match recB nb c with
               | none => none
               | some (some cyc, cc') =>
                 if cyc.isEmpty then some (none, cc') else some (some cyc, cc')
               | some (none, cc') => some (none, cc')) by
          simp [dfsCycStep, h1, h0]]
        match hr : recA nb c with
        | none =>
          rw [hr, dfsCycFold_none] at h
          exact absurd h (by simp)
        | some (some cyc, cc) =>
          rw [hr] at h
          rw [hAB nb c (some cyc, cc) hr]
          by_cases hemp : cyc.isEmpty
          · simp only [hemp, if_true] at h ⊢
            exact ih cc r h
          · simp only [hemp, Bool.false_eq_true, if_false] at h ⊢
            rw [dfsCycFold_found] at h
            rw [dfsCycFold_found]
            exact h
        | some (none, cc) =>
          rw [hr] at h
          rw [hAB nb c (none, cc) hr]
          exact ih cc r h
      · rw [show dfsCycStep recA path1 (some (none, c)) nb = some (none, c) by
          simp [dfsCycStep, h1, h0]] at h
        rw [show dfsCycStep recB path1 (some (none, c)) nb = some (none, c) by
          simp [dfsCycStep, h1, h0]]
        exact ih c r h

theorem dfsCyc_mono (adj : Adj) :
    ∀ (fuel : Nat) (node : Node) (path : List Node) (c : Coloring)
      (r : Option (List Node) × Coloring),
      dfsCyc adj fuel node path c = some r →
      dfsCyc adj (fuel + 1) node path c = some r := by
  intro fuel
  induction fuel with
  | zero => intro node path c r h; exact absurd h (by simp [dfsCyc])
  | succ fuel ih =>
    intro node path c r h
    simp only [dfsCyc] at h
    cases hfoldE : (adj node).foldl
        (dfsCycStep (fun nb cc => dfsCyc adj fuel nb (path ++ [node]) cc) (path ++ [node]))
        (some (none, Function.update c node 1)) with
    | none => rw [hfoldE] at h; simp at h
    | some p =>
      rw [hfoldE] at h
      have hB := dfsCycFold_mono (fun nb cc => dfsCyc adj fuel nb (path ++ [node]) cc)
        (fun nb cc => dfsCyc adj (fuel + 1) nb (path ++ [node]) cc) (path ++ [node])
        (fun nb cc rr hr => ih nb (path ++ [node]) cc rr hr) (adj node)
        (Function.update c node 1) p hfoldE
      have hgoal : dfsCyc adj (fuel + 1 + 1) node path c
          = (match (adj node).foldl
              (dfsCycStep (fun nb cc => dfsCyc adj (fuel + 1) nb (path ++ [node]) cc)
                (path ++ [node]))
              (some (none, Function.update c node 1)) with
            | none => none
            | some (some cyc, c') => some (some cyc, c')
            | some (none, c') => some (none, Function.update c' node 2)) := rfl
      rw [hgoal, hB]
      exact h

theorem dfsCycFold_whiteshrink
    (rec : Node → Coloring → Option (Option (List Node) × Coloring))
    (path1 : List Node)
    (hrec : ∀ nb cc res cc', rec nb cc = some (res, cc') → ∀ x, cc' x = 0 → cc x = 0) :
    ∀ (l : List Node) (c : Coloring) (res : Option (List Node)) (c' : Coloring),
      l.foldl (dfsCycStep rec path1) (some (none, c)) = some (res, c') →
      ∀ x, c' x = 0 → c x = 0 := by
  intro l
  induction l with
  | nil =>
    intro c res c' hfold
    simp only [List.foldl_nil, Option.some.injEq, Prod.mk.injEq] at hfold
    rw [← hfold.2]
    exact fun x hx => hx
  | cons nb rest ih =>
    intro c res c' hfold
    rw [List.foldl_cons] at hfold
    by_cases h1 : c nb = 1
    · cases hfind : path1.findIdx? (fun x => x == nb) with
      | none =>
        rw [show dfsCycStep rec path1 (some (none, c)) nb = none by
          simp [dfsCycStep, h1, hfind], dfsCycFold_none] at hfold
        exact absurd hfold (by simp)
      | some idx =>
        rw [show dfsCycStep rec path1 (some (none, c)) nb
            = some (some (path1.drop idx ++ [nb]), c) by
          simp [dfsCycStep, h1, hfind], dfsCycFold_found] at hfold
        simp only [Option.some.injEq, Prod.mk.injEq] at hfold
        rw [← hfold.2]
        exact fun x hx => hx
    · by_cases h0 : c nb = 0
      · rw [show dfsCycStep rec path1 (some (none, c)) nb
            = (match rec nb c with
               | none => none
               | some (some cyc, cc') =>
                 if cyc.isEmpty then some (none, cc') else some (some cyc, cc')
               | some (none, cc') => some (none, cc')) by
          simp [dfsCycStep, h1, h0]] at hfold
        match hr : rec nb c with
        | none =>
          rw [hr, dfsCycFold_none] at hfold
          exact absurd hfold (by simp)
        | some (some cyc, cc) =>
          rw [hr] at hfold
          by_cases hemp : cyc.isEmpty
          · simp only [hemp, if_true] at hfold
            exact fun x hx => hrec nb c (some cyc) cc hr x (ih cc res c' hfold x hx)
          · simp only [hemp, Bool.false_eq_true, if_false] at hfold
            rw [dfsCycFold_found] at hfold
            simp only [Option.some.injEq, Prod.mk.injEq] at hfold
            rw [← hfold.2]
            exact hrec nb c (some cyc) cc hr
        | some (none, cc) =>
          rw [hr] at hfold
          exact fun x hx => hrec nb c none cc hr x (ih cc res c' hfold x hx)
      · rw [show dfsCycStep rec path1 (some (none, c)) nb = some (none, c) by
          simp [dfsCycStep, h1, h0]] at hfold
        exact ih c res c' hfold

theorem dfsCyc_whiteshrink (adj : Adj) :
    ∀ (fuel : Nat) (node : Node) (path : List Node) (c : Coloring)
      (res : Option (List Node)) (c' : Coloring),
      dfsCyc adj fuel node path c = some (res, c') → ∀ x, c' x = 0 → c x = 0 := by
  intro fuel
  induction fuel with
  | zero => intro node path c res c' h; exact absurd h (by simp [dfsCyc])
  | succ fuel ih =>
    intro node path c res c' h
    simp only [dfsCyc] at h
    cases hfoldE : (adj node).foldl
        (dfsCycStep (fun nb cc => dfsCyc adj fuel nb (path ++ [node]) cc) (path ++ [node]))
        (some (none, Function.update c node 1)) with
    | none => rw [hfoldE] at h; simp at h
    | some p =>
      obtain ⟨r2, c2⟩ := p
      rw [hfoldE] at h
      have hshrink := dfsCycFold_whiteshrink
        (fun nb cc => dfsCyc adj fuel nb (path ++ [node]) cc) (path ++ [node])
        (fun nb cc rr cc' hr => ih nb (path ++ [node]) cc rr cc' hr) (adj node)
        (Function.update c node 1) r2 c2 hfoldE
      have hupd : ∀ y, Function.update c node 1 y = 0 → c y = 0 := by
        intro y hy
        rw [Function.update_apply] at hy
        by_cases hyn : y = node
        · rw [if_pos hyn] at hy; omega
        · rwa [if_neg hyn] at hy
      cases r2 with
      | some cyc =>
        simp only [Option.some.injEq, Prod.mk.injEq] at h
        rw [← h.2]
        exact fun x hx => hupd x (hshrink x hx)
      | none =>
        simp only [Option.some.injEq, Prod.mk.injEq] at h
        rw [← h.2]
        intro x hx
        rw [Function.update_apply] at hx
        by_cases hxn : x = node
        · rw [if_pos hxn] at hx; omega
        · rw [if_neg hxn] at hx
          exact hupd x (hshrink x hx)

theorem dfsCyc_mono_le (adj : Adj) {fuel fuel' : Nat} (hle : fuel ≤ fuel') :
    ∀ (node : Node) (path : List Node) (c : Coloring) (r : Option (List Node) × Coloring),
      dfsCyc adj fuel node path c = some r → dfsCyc adj fuel' node path c = some r := by
  induction fuel' with
  | zero =>
    intro node path c r h
    have : fuel = 0 := by omega
    subst this
    exact h
  | succ fuel' ih =>
    intro node path c r h
    by_cases heq : fuel = fuel' + 1
    · subst heq; exact h
    · exact dfsCyc_mono adj fuel' node path c r (ih (by omega) node path c r h)

theorem isDagLoop_mono_le (adj : Adj) {fuel fuel' : Nat} (hle : fuel ≤ fuel') :
    ∀ (l : List Node) (c : Coloring) (r : Bool × Coloring),
      isDagLoop adj fuel l c = some r → isDagLoop adj fuel' l c = some r := by
  intro l
  induction l with
  | nil => intro c r h; exact h
  | cons n rest ih =>
    intro c r h
    rw [isDagLoop] at h ⊢
    by_cases h0 : c n = 0
    · rw [if_pos h0] at h ⊢
      cases hdfs : dfsNode adj fuel n c with
      | none => rw [hdfs] at h; simp at h
      | some p =>
        obtain ⟨b1, c1⟩ := p
        rw [hdfs] at h
        rw [dfsNode_mono_le adj hle n c (b1, c1) hdfs]
        cases b1 with
        | false => exact h
        | true => exact ih c1 r h
    · rw [if_neg h0] at h ⊢
      exact ih c r h

theorem findCycleLoop_mono_le (adj : Adj) {fuel fuel' : Nat} (hle : fuel ≤ fuel') :
    ∀ (l : List Node) (c : Coloring) (r : Option (List Node) × Coloring),
      findCycleLoop adj fuel l c = some r → findCycleLoop adj fuel' l c = some r := by
  intro l
  induction l with
  | nil => intro c r h; exact h
  | cons n rest ih =>
    intro c r h
    rw [findCycleLoop] at h ⊢
    by_cases h0 : c n = 0
    · rw [if_pos h0] at h ⊢
      cases hdfs : dfsCyc adj fuel n [] c with
      | none => rw [hdfs] at h; simp at h
      | some p =>
        obtain ⟨r1, c1⟩ := p
        rw [hdfs] at h
        rw [dfsCyc_mono_le adj hle n [] c (r1, c1) hdfs]
        cases r1 with
        | none => exact ih c1 r h
        | some cyc =>
          by_cases hemp : cyc.isEmpty
          · simp only [hemp, if_true] at h ⊢
            exact ih c1 r h
          · simp only [hemp, Bool.false_eq_true, if_false] at h ⊢
            exact h
    · rw [if_neg h0] at h ⊢
      exact ih c r h

/-- A dfs call of is_dag_dfs leaves its own node non-white. -/
theorem dfsNode_marks (adj : Adj) (fuel : Nat) (node : Node) (c : Coloring)
    (b : Bool) (c' : Coloring) (h : dfsNode adj fuel node c = some (b, c')) :
    c' node ≠ 0 := by
  cases fuel with
  | zero => exact absurd h (by simp [dfsNode])
  | succ fuel =>
    simp only [dfsNode] at h
    cases hfoldE : (adj node).foldl (dfsStep fun nb cc => dfsNode adj fuel nb cc)
        (some (true, Function.update c node 1)) with
    | none => rw [hfoldE] at h; simp at h
    | some p =>
      obtain ⟨b2, c2⟩ := p
      rw [hfoldE] at h
      have hshrink := dfsFold_whiteshrink (fun nb cc => dfsNode adj fuel nb cc)
        (fun nb cc bb cc' hr => dfsNode_whiteshrink adj fuel nb cc bb cc' hr)
        (adj node) (Function.update c node 1) b2 c2 hfoldE
      have h2 : c2 node ≠ 0 := by
        intro hz
        have := hshrink node hz
        rw [Function.update_apply, if_pos rfl] at this
        omega
      cases b2 with
      | false =>
        simp only [Option.some.injEq, Prod.mk.injEq] at h
        rw [← h.2]
        exact h2
      | true =>
        simp only [Option.some.injEq, Prod.mk.injEq] at h
        rw [← h.2]
        rw [Function.update_apply, if_pos rfl]
        omega

/-- A dfs call of find_cycle_dfs leaves its own node non-white. -/
theorem dfsCyc_marks (adj : Adj) (fuel : Nat) (node : Node) (path : List Node)
    (c : Coloring) (res : Option (List Node)) (c' : Coloring)
    (h : dfsCyc adj fuel node path c = some (res, c')) :
    c' node ≠ 0 := by
  cases fuel with
  | zero => exact absurd h (by simp [dfsCyc])
  | succ fuel =>
    simp only [dfsCyc] at h
    cases hfoldE : (adj node).foldl
        (dfsCycStep (fun nb cc => dfsCyc adj fuel nb (path ++ [node]) cc) (path ++ [node]))
        (some (none, Function.update c node 1)) with
    | none => rw [hfoldE] at h; simp at h
    | some p =>
      obtain ⟨r2, c2⟩ := p
      rw [hfoldE] at h
      have hshrink := dfsCycFold_whiteshrink
        (fun nb cc => dfsCyc adj fuel nb (path ++ [node]) cc) (path ++ [node])
        (fun nb cc rr cc' hr => dfsCyc_whiteshrink adj fuel nb (path ++ [node]) cc rr cc' hr)
        (adj node) (Function.update c node 1) r2 c2 hfoldE
      have h2 : c2 node ≠ 0 := by
        intro hz
        have := hshrink node hz
        rw [Function.update_apply, if_pos rfl] at this
        omega
      cases r2 with
      | some cyc =>
        simp only [Option.some.injEq, Prod.mk.injEq] at h
        rw [← h.2]
        exact h2
      | none =>
        simp only [Option.some.injEq, Prod.mk.injEq] at h
        rw [← h.2]
        rw [Function.update_apply, if_pos rfl]
        omega

/-! ### Duplicate declared nodes are no-ops in the outer loops -/

theorem isDagLoop_dedup (adj : Adj) (fuel : Nat) :
    ∀ (l seen : List Node) (c : Coloring), (∀ x ∈ seen, c x ≠ 0) →
      isDagLoop adj fuel (firstDedupAux l seen) c = isDagLoop adj fuel l c := by
  intro l
  induction l with
  | nil => intro seen c _; rfl
  | cons a l ih =>
    intro seen c hseen
    by_cases ha : a ∈ seen
    · rw [firstDedupAux, if_pos ha]
      rw [show isDagLoop adj fuel (a :: l) c = isDagLoop adj fuel l c by
        rw [isDagLoop, if_neg (hseen a ha)]]
      exact ih seen c hseen
    · rw [firstDedupAux, if_neg ha]
      rw [isDagLoop, isDagLoop]
      by_cases h0 : c a = 0
      · rw [if_pos h0, if_pos h0]
        cases hdfs : dfsNode adj fuel a c with
        | none => rfl
        | some p =>
          obtain ⟨b1, c1⟩ := p
          cases b1 with
          | false => rfl
          | true =>
            apply ih (a :: seen) c1
            intro x hx
            rcases List.mem_cons.mp hx with rfl | hx'
            · exact dfsNode_marks adj fuel x c true c1 hdfs
            · intro hz
              exact hseen x hx' (dfsNode_whiteshrink adj fuel a c true c1 hdfs x hz)
      · rw [if_neg h0, if_neg h0]
        apply ih (a :: seen) c
        intro x hx
        rcases List.mem_cons.mp hx with rfl | hx'
        · exact h0
        · exact hseen x hx'

theorem findCycleLoop_dedup (adj : Adj) (fuel : Nat) :
    ∀ (l seen : List Node) (c : Coloring), (∀ x ∈ seen, c x ≠ 0) →
      findCycleLoop adj fuel (firstDedupAux l seen) c = findCycleLoop adj fuel l c := by
  intro l
  induction l with
  | nil => intro seen c _; rfl
  | cons a l ih =>
    intro seen c hseen
    by_cases ha : a ∈ seen
    · rw [firstDedupAux, if_pos ha]
      rw [show findCycleLoop adj fuel (a :: l) c = findCycleLoop adj fuel l c by
        rw [findCycleLoop, if_neg (hseen a ha)]]
      exact ih seen c hseen
    · rw [firstDedupAux, if_neg ha]
      rw [findCycleLoop, findCycleLoop]
      by_cases h0 : c a = 0
      · rw [if_pos h0, if_pos h0]
        cases hdfs : dfsCyc adj fuel a [] c with
        | none => rfl
        | some p =>
          obtain ⟨r1, c1⟩ := p
          have hmark : c1 a ≠ 0 := dfsCyc_marks adj fuel a [] c r1 c1 hdfs
          have hcont : ∀ x ∈ a :: seen, c1 x ≠ 0 := by
            intro x hx
            rcases List.mem_cons.mp hx with rfl | hx'
            · exact hmark
            · intro hz
              exact hseen x hx' (dfsCyc_whiteshrink adj fuel a [] c r1 c1 hdfs x hz)
          cases r1 with
          | none => exact ih (a :: seen) c1 hcont
          | some cyc =>
            by_cases hemp : cyc.isEmpty
            · simp only [hemp, if_true]
              exact ih (a :: seen) c1 hcont
            · simp only [hemp, Bool.false_eq_true, if_false]
      · rw [if_neg h0, if_neg h0]
        apply ih (a :: seen) c
        intro x hx
        rcases List.mem_cons.mp hx with rfl | hx'
        · exact h0
        · exact hseen x hx'

/-! ### Assembling the DFS-side results -/

/-- If is_dag_dfs answers false, find_cycle_dfs reports a GoodCycle. -/
theorem find_cycle_good_of_is_dag_false {nodes : List Node}
    {edges : List (Node × Node)}
    (h : is_dag_dfs nodes edges = some false) :
    ∃ cyc, find_cycle_dfs nodes edges = some (some cyc) ∧ GoodCycle nodes edges cyc := by
  unfold is_dag_dfs at h
  cases hrun : isDagLoop (buildAdjacency nodes edges) (nodes.length + 1) nodes
      (fun _ => 0) with
  | none => rw [hrun] at h; simp at h
  | some p =>
    obtain ⟨b, cD⟩ := p
    rw [hrun] at h
    simp only [Option.map_some', Option.some.injEq] at h
    have hb : b = false := h
    subst hb
    have hsim := loopSim nodes edges (buildAdjacency nodes edges)
      (fun u v => mem_buildAdjacency) (nodes.length + 1) nodes (fun _ => 0)
      (fun n hn => hn) (fun x => by simp) (fun x => by simp)
    cases hF : findCycleLoop (buildAdjacency nodes edges) (nodes.length + 1) nodes
        (fun _ => 0) with
    | none => rw [hF, hrun] at hsim; exact absurd hsim (by simp [SimRel])
    | some q =>
      obtain ⟨res, cF⟩ := q
      cases res with
      | none => rw [hF, hrun] at hsim; exact absurd hsim (by simp [SimRel])
      | some cyc =>
        have hgood := findCycleLoop_good nodes edges (buildAdjacency nodes edges)
          (fun u v => mem_buildAdjacency) (nodes.length + 1) nodes (fun _ => 0)
          (some cyc) cF (fun n hn => hn) (fun x => by simp) (fun x => by simp)
          hF cyc rfl
        refine ⟨cyc, ?_, hgood⟩
        unfold find_cycle_dfs
        rw [hF]
        rfl

/-- If is_dag_dfs answers false, the graph has a cycle. -/
theorem hasCycle_of_is_dag_false {nodes : List Node} {edges : List (Node × Node)}
    (h : is_dag_dfs nodes edges = some false) : HasCycle nodes edges := by
  obtain ⟨cyc, _, hgood⟩ := find_cycle_good_of_is_dag_false h
  exact ⟨cyc, hgood.closedWalk⟩

/-- The two possible answers of is_dag_dfs. -/
theorem is_dag_dfs_eq_some_true_or_false (nodes : List Node)
    (edges : List (Node × Node)) :
    is_dag_dfs nodes edges = some true ∨ is_dag_dfs nodes edges = some false := by
  have h := is_dag_dfs_isSome nodes edges
  cases hr : is_dag_dfs nodes edges with
  | none => rw [hr] at h; simp at h
  | some b => cases b with
    | true => exact Or.inl rfl
    | false => exact Or.inr rfl

/-- C1, as an iff. -/
theorem is_dag_dfs_iff_no_cycle (nodes : List Node) (edges : List (Node × Node)) :
    is_dag_dfs nodes edges = some true ↔ ¬ HasCycle nodes edges := by
  constructor
  · exact is_dag_dfs_true_of_no_cycle_aux
  · intro hnc
    rcases is_dag_dfs_eq_some_true_or_false nodes edges with h | h
    · exact h
    · exact absurd (hasCycle_of_is_dag_false h) hnc

/-- The answers of find_cycle_dfs and is_dag_dfs determine each other. -/
theorem find_cycle_none_iff_is_dag_true (nodes : List Node)
    (edges : List (Node × Node)) :
    (find_cycle_dfs nodes edges = some none ↔ is_dag_dfs nodes edges = some true) ∧
    ((∃ cyc, find_cycle_dfs nodes edges = some (some cyc)) ↔
      is_dag_dfs nodes edges = some false) := by
  have hsim := loopSim nodes edges (buildAdjacency nodes edges)
    (fun u v => mem_buildAdjacency) (nodes.length + 1) nodes (fun _ => 0)
    (fun n hn => hn) (fun x => by simp) (fun x => by simp)
  unfold find_cycle_dfs is_dag_dfs
  match hF : findCycleLoop (buildAdjacency nodes edges) (nodes.length + 1) nodes
      (fun _ => 0),
    hD : isDagLoop (buildAdjacency nodes edges) (nodes.length + 1) nodes
      (fun _ => 0) with
  | none, none => simp
  | none, some p => rw [hF, hD] at hsim; exact absurd hsim (by cases p with
      | mk b c => cases b <;> simp [SimRel])
  | some p, none => rw [hF, hD] at hsim; exact absurd hsim (by cases p with
      | mk r c => cases r <;> simp [SimRel])
  | some (none, cF), some (true, cD) => simp
  | some (none, cF), some (false, cD) =>
    rw [hF, hD] at hsim; exact absurd hsim (by simp [SimRel])
  | some (some cyc, cF), some (true, cD) =>
    rw [hF, hD] at hsim; exact absurd hsim (by simp [SimRel])
  | some (some cyc, cF), some (false, cD) =>
    constructor
    · simp
    · constructor
      · intro _; simp
      · intro _; exact ⟨cyc, by simp⟩

/-- The kept edges only depend on node membership. -/
theorem validEdges_congr {nodes nodes' : List Node} (edges : List (Node × Node))
    (h : ∀ x, x ∈ nodes' ↔ x ∈ nodes) :
    validEdges nodes' edges = validEdges nodes edges := by
  unfold validEdges
  apply List.filter_congr
  intro e _
  have h1 := h e.1
  have h2 := h e.2
  by_cases hm : e.1 ∈ nodes ∧ e.2 ∈ nodes
  · rw [decide_eq_true (by tauto), decide_eq_true (by tauto)]
  · rw [decide_eq_false (by tauto), decide_eq_false (by tauto)]

theorem buildAdjacency_congr {nodes nodes' : List Node} (edges : List (Node × Node))
    (h : ∀ x, x ∈ nodes' ↔ x ∈ nodes) :
    buildAdjacency nodes' edges = buildAdjacency nodes edges := by
  funext u
  rw [buildAdjacency_eq, buildAdjacency_eq, validEdges_congr edges h]

theorem hasCycle_congr {nodes nodes' : List Node} (edges : List (Node × Node))
    (h : ∀ x, x ∈ nodes' ↔ x ∈ nodes) :
    HasCycle nodes' edges ↔ HasCycle nodes edges := by
  have himp : ∀ (a b : List Node), (∀ x, x ∈ a ↔ x ∈ b) →
      HasCycle a edges → HasCycle b edges := by
    intro a b hab ⟨l, hlen, hchain, hhl⟩
    refine ⟨l, hlen, ?_, hhl⟩
    exact List.Chain'.imp (fun x y ⟨he, h1, h2⟩ =>
      ⟨he, (hab x).mp h1, (hab y).mp h2⟩) hchain
  exact ⟨himp nodes' nodes h, himp nodes nodes' (fun x => (h x).symm)⟩

/-- is_dag_dfs gives the same answer on a node list and its deduplication. -/
theorem is_dag_dfs_eq_dedup (nodes : List Node) (edges : List (Node × Node)) :
    is_dag_dfs nodes edges = is_dag_dfs (firstDedup nodes) edges := by
  have hadjeq : buildAdjacency (firstDedup nodes) edges = buildAdjacency nodes edges :=
    buildAdjacency_congr edges (fun x => mem_firstDedup)
  have hle : (firstDedup nodes).length + 1 ≤ nodes.length + 1 := by
    have := length_firstDedup_le nodes
    omega
  have h2 := is_dag_dfs_isSome (firstDedup nodes) edges
  unfold is_dag_dfs at h2 ⊢
  rw [hadjeq] at h2 ⊢
  cases hr : isDagLoop (buildAdjacency nodes edges) ((firstDedup nodes).length + 1)
      (firstDedup nodes) (fun _ => 0) with
  | none => rw [hr] at h2; simp at h2
  | some r =>
    have hlift := isDagLoop_mono_le (buildAdjacency nodes edges) hle
      (firstDedup nodes) (fun _ => 0) r hr
    have hdedup := isDagLoop_dedup (buildAdjacency nodes edges) (nodes.length + 1)
      nodes [] (fun _ => 0) (by simp)
    rw [show firstDedupAux nodes [] = firstDedup nodes from rfl] at hdedup
    rw [← hdedup, hlift]

/-- find_cycle_dfs gives the same answer on a node list and its deduplication. -/
theorem find_cycle_dfs_eq_dedup (nodes : List Node) (edges : List (Node × Node)) :
    find_cycle_dfs nodes edges = find_cycle_dfs (firstDedup nodes) edges := by
  have hadjeq : buildAdjacency (firstDedup nodes) edges = buildAdjacency nodes edges :=
    buildAdjacency_congr edges (fun x => mem_firstDedup)
  have hle : (firstDedup nodes).length + 1 ≤ nodes.length + 1 := by
    have := length_firstDedup_le nodes
    omega
  have h2 := find_cycle_dfs_isSome (firstDedup nodes) edges
  unfold find_cycle_dfs at h2 ⊢
  rw [hadjeq] at h2 ⊢
  cases hr : findCycleLoop (buildAdjacency nodes edges) ((firstDedup nodes).length + 1)
      (firstDedup nodes) (fun _ => 0) with
  | none => rw [hr] at h2; simp at h2
  | some r =>
    have hlift := findCycleLoop_mono_le (buildAdjacency nodes edges) hle
      (firstDedup nodes) (fun _ => 0) r hr
    have hdedup := findCycleLoop_dedup (buildAdjacency nodes edges) (nodes.length + 1)
      nodes [] (fun _ => 0) (by simp)
    rw [show firstDedupAux nodes [] = firstDedup nodes from rfl] at hdedup
    rw [← hdedup, hlift]

/-- Any cycle reported by find_cycle_dfs is a GoodCycle. -/
theorem good_of_find_cycle_some {nodes : List Node} {edges : List (Node × Node)}
    {cyc : List Node} (h : find_cycle_dfs nodes edges = some (some cyc)) :
    GoodCycle nodes edges cyc := by
  unfold find_cycle_dfs at h
  cases hF : findCycleLoop (buildAdjacency nodes edges) (nodes.length + 1) nodes
      (fun _ => 0) with
  | none => rw [hF] at h; simp at h
  | some p =>
    obtain ⟨res, cF⟩ := p
    rw [hF] at h
    simp only [Option.map_some', Option.some.injEq] at h
    exact findCycleLoop_good nodes edges (buildAdjacency nodes edges)
      (fun u v => mem_buildAdjacency) (nodes.length + 1) nodes (fun _ => 0)
      res cF (fun n hn => hn) (fun x => by simp) (fun x => by simp) hF cyc h

/-! ### The claims -/

/-- C1: for every finite list of node identifiers and every finite list of
(source, target) edges, is_dag_dfs returns true exactly when the directed
graph of the declared nodes and the valid edges contains no directed cycle. -/
theorem claim_C1_is_dag_dfs_iff_no_cycle (nodes : List Node)
    (edges : List (Node × Node)) :
    is_dag_dfs nodes edges = some true ↔ ¬ HasCycle nodes edges :=
  is_dag_dfs_iff_no_cycle nodes edges

/-- C3: whenever is_dag_dfs answers false, find_cycle_dfs returns a nonempty
sequence whose first and last elements are equal and whose consecutive pairs
are edges of the supplied edge list. -/
theorem claim_C3_find_cycle_on_non_dag (nodes : List Node)
    (edges : List (Node × Node)) (h : is_dag_dfs nodes edges = some false) :
    ∃ cyc, find_cycle_dfs nodes edges = some (some cyc) ∧ cyc ≠ [] ∧
      cyc.head? = cyc.getLast? ∧ cyc.Chain' (fun a b => (a, b) ∈ edges) := by
  obtain ⟨cyc, hfind, hgood⟩ := find_cycle_good_of_is_dag_false h
  exact ⟨cyc, hfind, hgood.1, hgood.2.2.1,
    List.Chain'.imp (fun a b he => he.1) hgood.2.2.2.1⟩

theorem claim_C3_witness :
    is_dag_dfs ["A"] [("A", "A")] = some false ∧
    ∃ cyc, find_cycle_dfs ["A"] [("A", "A")] = some (some cyc) ∧ cyc ≠ [] ∧
      cyc.head? = cyc.getLast? ∧ cyc.Chain' (fun a b => (a, b) ∈ [("A", "A")]) :=
  ⟨by decide, claim_C3_find_cycle_on_non_dag ["A"] [("A", "A")] (by decide)⟩

/-- C4: find_cycle_dfs returns Python's None exactly when is_dag_dfs returns
true, and returns a present cycle exactly when is_dag_dfs returns false. -/
theorem claim_C4_find_cycle_none_iff_is_dag (nodes : List Node)
    (edges : List (Node × Node)) :
    (find_cycle_dfs nodes edges = some none ↔ is_dag_dfs nodes edges = some true) ∧
    ((∃ cyc, find_cycle_dfs nodes edges = some (some cyc)) ↔
      is_dag_dfs nodes edges = some false) :=
  find_cycle_none_iff_is_dag_true nodes edges

/-- C6: on nodes [A, B] and edges [(A,B), (B,A)], is_dag_dfs answers false and
find_cycle_dfs returns a cycle of length 3 equal to [A,B,A] or [B,A,B]. -/
theorem claim_C6_two_node_cycle_scenario :
    is_dag_dfs ["A", "B"] [("A", "B"), ("B", "A")] = some false ∧
    ∃ cyc, find_cycle_dfs ["A", "B"] [("A", "B"), ("B", "A")] = some (some cyc) ∧
      cyc.length = 3 ∧ (cyc = ["A", "B", "A"] ∨ cyc = ["B", "A", "B"]) :=
  ⟨by decide, ["A", "B", "A"], by decide, rfl, Or.inl rfl⟩

/-- C7: permuting the declared node list does not change the verdict of
is_dag_dfs. -/
theorem claim_C7_is_dag_dfs_perm_invariant (nodes nodes' : List Node)
    (edges : List (Node × Node)) (h : nodes'.Perm nodes) :
    is_dag_dfs nodes' edges = is_dag_dfs nodes edges := by
  have hm : ∀ x, x ∈ nodes' ↔ x ∈ nodes := fun x => h.mem_iff
  have hiff := hasCycle_congr edges hm
  rcases is_dag_dfs_eq_some_true_or_false nodes' edges with h1 | h1 <;>
    rcases is_dag_dfs_eq_some_true_or_false nodes edges with h2 | h2
  · rw [h1, h2]
  · exfalso
    have hnc : ¬ HasCycle nodes' edges := (is_dag_dfs_iff_no_cycle nodes' edges).mp h1
    have hnc2 : ¬ HasCycle nodes edges := fun hc => hnc (hiff.mpr hc)
    have := (is_dag_dfs_iff_no_cycle nodes edges).mpr hnc2
    rw [h2] at this
    simp at this
  · exfalso
    have hnc : ¬ HasCycle nodes edges := (is_dag_dfs_iff_no_cycle nodes edges).mp h2
    have hnc2 : ¬ HasCycle nodes' edges := fun hc => hnc (hiff.mp hc)
    have := (is_dag_dfs_iff_no_cycle nodes' edges).mpr hnc2
    rw [h1] at this
    simp at this
  · rw [h1, h2]

theorem claim_C7_witness :
    is_dag_dfs ["B", "A"] [("A", "B"), ("B", "A")]
      = is_dag_dfs ["A", "B"] [("A", "B"), ("B", "A")] :=
  claim_C7_is_dag_dfs_perm_invariant ["A", "B"] ["B", "A"] [("A", "B"), ("B", "A")]
    (by decide)

/-- C9: a node list with duplicate identifiers gives the same results of
is_dag_dfs and find_cycle_dfs as the list with duplicates removed (keeping
first occurrences), and no error is raised (the embedded computations return
some result). -/
theorem claim_C9_duplicate_nodes_no_op (nodes : List Node)
    (edges : List (Node × Node)) (hd : ¬ nodes.Nodup) :
    is_dag_dfs nodes edges = is_dag_dfs (firstDedup nodes) edges ∧
    find_cycle_dfs nodes edges = find_cycle_dfs (firstDedup nodes) edges ∧
    (is_dag_dfs nodes edges).isSome ∧ (find_cycle_dfs nodes edges).isSome :=
  ⟨is_dag_dfs_eq_dedup nodes edges, find_cycle_dfs_eq_dedup nodes edges,
    is_dag_dfs_isSome nodes edges, find_cycle_dfs_isSome nodes edges⟩

theorem claim_C9_witness :
    is_dag_dfs ["A", "A"] [("A", "A")]
        = is_dag_dfs (firstDedup ["A", "A"]) [("A", "A")] ∧
    find_cycle_dfs ["A", "A"] [("A", "A")]
        = find_cycle_dfs (firstDedup ["A", "A"]) [("A", "A")] ∧
    (is_dag_dfs ["A", "A"] [("A", "A")]).isSome ∧
    (find_cycle_dfs ["A", "A"] [("A", "A")]).isSome :=
  claim_C9_duplicate_nodes_no_op ["A", "A"] [("A", "A")] (by decide)

/-- C10: every cycle returned by find_cycle_dfs is simple: its elements are
pairwise distinct except that the first equals the last, so its length is at
most the number of distinct declared nodes plus one. -/
theorem claim_C10_returned_cycle_simple (nodes : List Node)
    (edges : List (Node × Node)) (cyc : List Node)
    (h : find_cycle_dfs nodes edges = some (some cyc)) :
    cyc.dropLast.Nodup ∧ cyc.head? = cyc.getLast? ∧
    cyc.length ≤ (firstDedup nodes).length + 1 := by
  have hgood := good_of_find_cycle_some h
  refine ⟨hgood.2.2.2.2.1, hgood.2.2.1, ?_⟩
  have hsub : cyc.dropLast ⊆ firstDedup nodes := by
    intro x hx
    exact mem_firstDedup.mpr
      (hgood.2.2.2.2.2 x (List.Sublist.subset (List.dropLast_sublist cyc) hx))
  have hlen : cyc.dropLast.length ≤ (firstDedup nodes).length :=
    (List.subperm_of_subset hgood.2.2.2.2.1 hsub).length_le
  have hne : cyc ≠ [] := hgood.1
  have hdl : cyc.dropLast.length = cyc.length - 1 := List.length_dropLast cyc
  have hpos : 1 ≤ cyc.length := by
    cases hcy : cyc with
    | nil => exact absurd hcy hne
    | cons a t => simp
  omega

theorem claim_C10_witness :
    (["A", "A"] : List Node).dropLast.Nodup ∧
    (["A", "A"] : List Node).head? = (["A", "A"] : List Node).getLast? ∧
    (["A", "A"] : List Node).length ≤ (firstDedup ["A"]).length + 1 :=
  claim_C10_returned_cycle_simple ["A"] [("A", "A")] ["A", "A"] (by decide)

/-! ### Termination of Kahn's algorithm -/

/-- Sum of the (clamped) indegrees over the universe U. -/
def indegSum (U : List Node) (ind : Node → Int) : Nat :=
  (U.map (fun v => (ind v).toNat)).sum

theorem indegSum_update {U : List Node} {ind : Node → Int} {nb : Node} {d : Int}
    (hmem : nb ∈ U) (hnd : U.Nodup) :
    indegSum U (Function.update ind nb d)
      = indegSum U ind - (ind nb).toNat + d.toNat := by
  induction U with
  | nil => simp at hmem
  | cons a U ih =>
    simp only [indegSum, List.map_cons, List.sum_cons]
    rcases List.mem_cons.mp hmem with rfl | hmem'
    · rw [Function.update_apply, if_pos rfl]
      have hnotin : nb ∉ U := (List.nodup_cons.mp hnd).1
      have hrest : (U.map (fun v => (Function.update ind nb d v).toNat)).sum
          = (U.map (fun v => (ind v).toNat)).sum := by
        apply congrArg
        apply List.map_congr_left
        intro v hv
        rw [Function.update_apply, if_neg (by rintro rfl; exact hnotin hv)]
      rw [hrest]
      omega
    · have hanb : a ≠ nb := by
        rintro rfl
        exact (List.nodup_cons.mp hnd).1 hmem'
      rw [Function.update_apply, if_neg hanb]
      have hrec := ih hmem' (List.nodup_cons.mp hnd).2
      simp only [indegSum] at hrec
      rw [hrec]
      have hle : (ind nb).toNat
          ≤ (U.map (fun v => (ind v).toNat)).sum := by
        have hm : (ind nb).toNat ∈ U.map (fun v => (ind v).toNat) :=
          List.mem_map.mpr ⟨nb, hmem', rfl⟩
        exact List.single_le_sum (fun x _ => Nat.zero_le x) _ hm
      omega

/-- One kahnStep does not increase queue length plus indegree sum. -/
theorem kahnStep_measure {U : List Node} (hnd : U.Nodup)
    {p : (Node → Int) × List Node} {nb : Node} (hmem : nb ∈ U) :
    (kahnStep p nb).2.length + indegSum U (kahnStep p nb).1
      ≤ p.2.length + indegSum U p.1 := by
  have hle : (p.1 nb).toNat ≤ indegSum U p.1 := by
    unfold indegSum
    have hm : (p.1 nb).toNat ∈ U.map (fun v => (p.1 v).toNat) :=
      List.mem_map.mpr ⟨nb, hmem, rfl⟩
    exact List.single_le_sum (fun x _ => Nat.zero_le x) _ hm
  unfold kahnStep
  by_cases hd : p.1 nb - 1 = 0
  · rw [if_pos hd]
    dsimp only
    simp only [List.length_append, List.length_singleton]
    rw [indegSum_update hmem hnd]
    omega
  · rw [if_neg hd]
    dsimp only
    rw [indegSum_update hmem hnd]
    omega

theorem kahnFold_measure {U : List Node} (hnd : U.Nodup) :
    ∀ (L : List Node) (p : (Node → Int) × List Node),
      (∀ nb ∈ L, nb ∈ U) →
      (L.foldl kahnStep p).2.length + indegSum U (L.foldl kahnStep p).1
        ≤ p.2.length + indegSum U p.1 := by
  intro L
  induction L with
  | nil => intro p _; exact le_refl _
  | cons nb rest ih =>
    intro p hL
    rw [List.foldl_cons]
    exact le_trans
      (ih (kahnStep p nb) (fun x hx => hL x (List.mem_cons_of_mem _ hx)))
      (kahnStep_measure hnd (hL nb (List.mem_cons_self nb rest)))

/-- The while loop of is_dag_topological cannot run out of fuel. -/
theorem kahnLoop_suff (adj : Adj) (U : List Node)
    (hU : ∀ u v, v ∈ adj u → v ∈ U) (hnd : U.Nodup) :
    ∀ (fuel : Nat) (indeg : Node → Int) (queue : List Node) (visited : Nat),
      queue.length + indegSum U indeg < fuel →
      (kahnLoop adj fuel indeg queue visited).isSome := by
  intro fuel
  induction fuel with
  | zero => intro indeg queue visited h; omega
  | succ fuel ih =>
    intro indeg queue visited h
    rw [kahnLoop]
    by_cases hq : queue = []
    · rw [dif_pos hq]; simp
    · rw [dif_neg hq]
      apply ih
      have hfold := kahnFold_measure hnd (adj (queue.getLast hq))
        (indeg, queue.dropLast) (fun nb hm => hU _ nb hm)
      have hdrop : queue.dropLast.length = queue.length - 1 := List.length_dropLast queue
      have hpos : 1 ≤ queue.length := by
        cases hcy : queue with
        | nil => exact absurd hcy hq
        | cons a t => simp
      simp only at hfold
      omega

theorem kahnLoop_mono (adj : Adj) :
    ∀ (fuel : Nat) (indeg : Node → Int) (queue : List Node) (visited : Nat) (r : Nat),
      kahnLoop adj fuel indeg queue visited = some r →
      kahnLoop adj (fuel + 1) indeg queue visited = some r := by
  intro fuel
  induction fuel with
  | zero => intro indeg queue visited r h; exact absurd h (by simp [kahnLoop])
  | succ fuel ih =>
    intro indeg queue visited r h
    rw [kahnLoop] at h ⊢
    by_cases hq : queue = []
    · rw [dif_pos hq] at h ⊢; exact h
    · rw [dif_neg hq] at h ⊢
      exact ih _ _ _ r h

theorem kahnLoop_mono_le (adj : Adj) {fuel fuel' : Nat} (hle : fuel ≤ fuel') :
    ∀ (indeg : Node → Int) (queue : List Node) (visited : Nat) (r : Nat),
      kahnLoop adj fuel indeg queue visited = some r →
      kahnLoop adj fuel' indeg queue visited = some r := by
  induction fuel' with
  | zero =>
    intro indeg queue visited r h
    have : fuel = 0 := by omega
    subst this
    exact h
  | succ fuel' ih =>
    intro indeg queue visited r h
    by_cases heq : fuel = fuel' + 1
    · subst heq; exact h
    · exact kahnLoop_mono adj fuel' _ _ _ r (ih (by omega) _ _ _ r h)

theorem sum_map_add (U : List Node) (f g : Node → Nat) :
    (U.map (fun v => f v + g v)).sum = (U.map f).sum + (U.map g).sum := by
  induction U with
  | nil => simp
  | cons a U ih => simp [ih]; omega

theorem sum_ite_one {U : List Node} (hnd : U.Nodup) {x : Node} (hx : x ∈ U) :
    (U.map (fun v => if x = v then 1 else 0)).sum = 1 := by
  induction U with
  | nil => simp at hx
  | cons a U ih =>
    simp only [List.map_cons, List.sum_cons]
    rcases List.mem_cons.mp hx with rfl | hx'
    · rw [if_pos rfl]
      have hnotin : x ∉ U := (List.nodup_cons.mp hnd).1
      have hz : (U.map (fun v => if x = v then 1 else 0)).sum = 0 := by
        rw [List.sum_eq_zero]
        intro y hy
        obtain ⟨v, hv, hvy⟩ := List.mem_map.mp hy
        rw [← hvy, if_neg (by rintro rfl; exact hnotin hv)]
      rw [hz]
    · have hax : a ≠ x := by
        rintro rfl
        exact (List.nodup_cons.mp hnd).1 hx'
      rw [if_neg (fun h => hax h.symm)]
      rw [ih (List.nodup_cons.mp hnd).2 hx']

theorem indegSum_count {U : List Node} (hnd : U.Nodup) :
    ∀ (E : List (Node × Node)), (∀ e ∈ E, e.2 ∈ U) →
      (U.map (fun v => (E.filter (fun e => decide (e.2 = v))).length)).sum = E.length := by
  intro E
  induction E with
  | nil => intro _; simp
  | cons e E ih =>
    intro hE
    have hsplit : ∀ v, ((e :: E).filter (fun e => decide (e.2 = v))).length
        = (if e.2 = v then 1 else 0) + (E.filter (fun e => decide (e.2 = v))).length := by
      intro v
      rw [List.filter_cons]
      by_cases hv : e.2 = v
      · rw [if_pos (by simpa using hv), if_pos hv, List.length_cons]
        omega
      · rw [if_neg (by simpa using hv), if_neg hv]
        omega
    rw [List.map_congr_left (fun v (_ : v ∈ U) => hsplit v)]
    rw [sum_map_add U (fun v => if e.2 = v then 1 else 0)
      (fun v => (E.filter (fun e => decide (e.2 = v))).length)]
    rw [sum_ite_one hnd (hE e (List.mem_cons_self e E))]
    rw [ih (fun x hx => hE x (List.mem_cons_of_mem _ hx))]
    simp [Nat.add_comm]

theorem indegSum_buildIndegree (nodes : List Node) (edges : List (Node × Node)) :
    indegSum (firstDedup nodes) (buildIndegree nodes edges)
      = (validEdges nodes edges).length := by
  unfold indegSum
  have hpt : ∀ v, (buildIndegree nodes edges v).toNat
      = ((validEdges nodes edges).filter (fun e => decide (e.2 = v))).length := by
    intro v
    rw [buildIndegree_eq]
    simp
  rw [List.map_congr_left (fun v (_ : v ∈ firstDedup nodes) => hpt v)]
  apply indegSum_count (nodup_firstDedup nodes)
  intro e he
  exact mem_firstDedup.mpr (mem_validEdges.mp he).2.2

/-- is_dag_topological always answers: its fuel suffices on every input. -/
theorem is_dag_topological_isSome (nodes : List Node) (edges : List (Node × Node)) :
    (is_dag_topological nodes edges).isSome := by
  unfold is_dag_topological
  have hU : ∀ u v, v ∈ buildAdjacency nodes edges u → v ∈ firstDedup nodes :=
    fun u v hm => mem_firstDedup.mpr (mem_nodes_of_mem_buildAdjacency hm)
  have hmeasure :
      ((firstDedup nodes).filter
        (fun n => decide (buildIndegree nodes edges n = 0))).length
      + indegSum (firstDedup nodes) (buildIndegree nodes edges)
      < nodes.length + edges.length + 1 := by
    have h1 := List.length_filter_le
      (fun n => decide (buildIndegree nodes edges n = 0)) (firstDedup nodes)
    have h2 := length_firstDedup_le nodes
    have h3 := indegSum_buildIndegree nodes edges
    have h4 := List.length_filter_le
      (fun e => decide (e.1 ∈ nodes ∧ e.2 ∈ nodes)) edges
    unfold validEdges at h3
    omega
  have hsome := kahnLoop_suff (buildAdjacency nodes edges) (firstDedup nodes) hU
    (nodup_firstDedup nodes) (nodes.length + edges.length + 1)
    (buildIndegree nodes edges)
    ((firstDedup nodes).filter (fun n => decide (buildIndegree nodes edges n = 0)))
    0 hmeasure
  cases hr : kahnLoop (buildAdjacency nodes edges) (nodes.length + edges.length + 1)
      (buildIndegree nodes edges)
      ((firstDedup nodes).filter (fun n => decide (buildIndegree nodes edges n = 0)))
      0 with
  | none => rw [hr] at hsome; simp at hsome
  | some v => simp [hr]

/-- C8: the three entry points are total: each returns a definite result on
every finite node and edge list (the embedding's fuel and partial
operations never fail). -/
theorem claim_C8_totality (nodes : List Node) (edges : List (Node × Node)) :
    (is_dag_dfs nodes edges).isSome ∧
    (find_cycle_dfs nodes edges).isSome ∧
    (is_dag_topological nodes edges).isSome :=
  ⟨is_dag_dfs_isSome nodes edges, find_cycle_dfs_isSome nodes edges,
    is_dag_topological_isSome nodes edges⟩

/-! ### Dropping dangling edges beforehand changes nothing -/

theorem validEdges_idem (nodes : List Node) (edges : List (Node × Node)) :
    validEdges nodes (validEdges nodes edges) = validEdges nodes edges := by
  unfold validEdges
  rw [List.filter_filter]
  apply List.filter_congr
  intro e _
  cases h : decide (e.1 ∈ nodes ∧ e.2 ∈ nodes) <;> simp [h]

theorem buildAdjacency_validEdges (nodes : List Node) (edges : List (Node × Node)) :
    buildAdjacency nodes (validEdges nodes edges) = buildAdjacency nodes edges := by
  funext u
  rw [buildAdjacency_eq, buildAdjacency_eq, validEdges_idem]

theorem buildIndegree_validEdges (nodes : List Node) (edges : List (Node × Node)) :
    buildIndegree nodes (validEdges nodes edges) = buildIndegree nodes edges := by
  funext v
  rw [buildIndegree_eq, buildIndegree_eq, validEdges_idem]

theorem is_dag_dfs_validEdges (nodes : List Node) (edges : List (Node × Node)) :
    is_dag_dfs nodes (validEdges nodes edges) = is_dag_dfs nodes edges := by
  unfold is_dag_dfs
  rw [buildAdjacency_validEdges]

theorem find_cycle_dfs_validEdges (nodes : List Node) (edges : List (Node × Node)) :
    find_cycle_dfs nodes (validEdges nodes edges) = find_cycle_dfs nodes edges := by
  unfold find_cycle_dfs
  rw [buildAdjacency_validEdges]

theorem is_dag_topological_validEdges (nodes : List Node) (edges : List (Node × Node)) :
    is_dag_topological nodes (validEdges nodes edges) = is_dag_topological nodes edges := by
  unfold is_dag_topological
  rw [buildAdjacency_validEdges, buildIndegree_validEdges]
  dsimp only
  have hle : nodes.length + (validEdges nodes edges).length + 1
      ≤ nodes.length + edges.length + 1 := by
    have := List.length_filter_le (fun e => decide (e.1 ∈ nodes ∧ e.2 ∈ nodes)) edges
    unfold validEdges
    omega
  have hU : ∀ u v, v ∈ buildAdjacency nodes edges u → v ∈ firstDedup nodes :=
    fun u v hm => mem_firstDedup.mpr (mem_nodes_of_mem_buildAdjacency hm)
  have hmeasure :
      ((firstDedup nodes).filter
        (fun n => decide (buildIndegree nodes edges n = 0))).length
      + indegSum (firstDedup nodes) (buildIndegree nodes edges)
      < nodes.length + (validEdges nodes edges).length + 1 := by
    have h1 := List.length_filter_le
      (fun n => decide (buildIndegree nodes edges n = 0)) (firstDedup nodes)
    have h2 := length_firstDedup_le nodes
    have h3 := indegSum_buildIndegree nodes edges
    omega
  have hsome := kahnLoop_suff (buildAdjacency nodes edges) (firstDedup nodes) hU
    (nodup_firstDedup nodes) (nodes.length + (validEdges nodes edges).length + 1)
    (buildIndegree nodes edges)
    ((firstDedup nodes).filter (fun n => decide (buildIndegree nodes edges n = 0)))
    0 hmeasure
  cases hr : kahnLoop (buildAdjacency nodes edges)
      (nodes.length + (validEdges nodes edges).length + 1)
      (buildIndegree nodes edges)
      ((firstDedup nodes).filter (fun n => decide (buildIndegree nodes edges n = 0)))
      0 with
  | none => rw [hr] at hsome; simp at hsome
  | some v =>
    rw [kahnLoop_mono_le (buildAdjacency nodes edges) hle _ _ _ v hr]

/-- C5: removing every dangling edge (one whose source or target is not
declared) changes none of the three results, and dangling edges cause no
error: all three entry points return a definite result. -/
theorem claim_C5_dangling_edges_dropped (nodes : List Node)
    (edges : List (Node × Node)) :
    is_dag_dfs nodes (validEdges nodes edges) = is_dag_dfs nodes edges ∧
    find_cycle_dfs nodes (validEdges nodes edges) = find_cycle_dfs nodes edges ∧
    is_dag_topological nodes (validEdges nodes edges) = is_dag_topological nodes edges ∧
    (is_dag_dfs nodes edges).isSome ∧
    (find_cycle_dfs nodes edges).isSome ∧
    (is_dag_topological nodes edges).isSome :=
  ⟨is_dag_dfs_validEdges nodes edges, find_cycle_dfs_validEdges nodes edges,
    is_dag_topological_validEdges nodes edges, is_dag_dfs_isSome nodes edges,
    find_cycle_dfs_isSome nodes edges, is_dag_topological_isSome nodes edges⟩

/-! ### Correctness of Kahn's algorithm -/

/-- The while loop of is_dag_topological, instrumented with the list of
popped nodes in pop order (a proof-only ghost; projecting it away gives
kahnLoop). -/
def kahnLoopP (adj : Adj) : Nat → (Node → Int) → List Node → Nat → List Node →
    Option (Nat × List Node)
  | 0, _, _, _, _ => none
  | fuel + 1, indeg, queue, visited, pops =>
    if h : queue = [] then some (visited, pops)
    else
      let node := queue.getLast h
      let s := (adj node).foldl kahnStep (indeg, queue.dropLast)
      kahnLoopP adj fuel s.1 s.2 (visited + 1) (pops ++ [node])

theorem kahnLoopP_proj (adj : Adj) :
    ∀ (fuel : Nat) (indeg : Node → Int) (queue : List Node) (visited : Nat)
      (pops : List Node),
      (kahnLoopP adj fuel indeg queue visited pops).map Prod.fst
        = kahnLoop adj fuel indeg queue visited := by
  intro fuel
  induction fuel with
  | zero => intro indeg queue visited pops; rfl
  | succ fuel ih =>
    intro indeg queue visited pops
    rw [kahnLoopP, kahnLoop]
    by_cases hq : queue = []
    · rw [dif_pos hq, dif_pos hq]; rfl
    · rw [dif_neg hq, dif_neg hq]
      exact ih _ _ _ _

theorem indexOf_append_left {x : Node} : ∀ {l : List Node} (t : List Node),
    x ∈ l → (l ++ t).indexOf x = l.indexOf x := by
  intro l
  induction l with
  | nil => intro t h; simp at h
  | cons a l ih =>
    intro t h
    by_cases hxa : x = a
    · subst hxa
      simp [List.indexOf_cons_self]
    · rw [List.cons_append, List.indexOf_cons_ne _ (fun hh => hxa hh.symm),
        List.indexOf_cons_ne _ (fun hh => hxa hh.symm)]
      rcases List.mem_cons.mp h with h' | h'
      · exact absurd h' hxa
      · rw [ih t h']

theorem indexOf_append_self {x : Node} : ∀ {l : List Node},
    x ∉ l → (l ++ [x]).indexOf x = l.length := by
  intro l
  induction l with
  | nil => simp
  | cons a l ih =>
    intro h
    have hxa : x ≠ a := fun hh => h (hh ▸ List.mem_cons_self a l)
    rw [List.cons_append, List.indexOf_cons_ne _ (fun hh => hxa hh.symm)]
    rw [ih (fun hh => h (List.mem_cons_of_mem _ hh))]
    simp

/-- Number of kept edges from u to v, with multiplicity. -/
def edgeCount (nodes : List Node) (edges : List (Node × Node)) (u v : Node) : Nat :=
  ((validEdges nodes edges).filter
    (fun e => decide (e.1 = u) && decide (e.2 = v))).length

/-- The multiplicity of v in u's adjacency list is the kept-edge count. -/
theorem count_buildAdjacency (nodes : List Node) (edges : List (Node × Node))
    (u v : Node) :
    (buildAdjacency nodes edges u).count v = edgeCount nodes edges u v := by
  rw [buildAdjacency_eq, List.count_eq_countP, List.countP_map,
    List.countP_filter, List.countP_eq_length_filter]
  unfold edgeCount
  congr 1
  apply List.filter_congr
  intro e _
  show (decide (e.2 = v) && decide (e.1 = u)) = (decide (e.1 = u) && decide (e.2 = v))
  exact Bool.and_comm _ _

/-- Number of kept edges into v whose source has not been popped. -/
def unpoppedPreds (nodes : List Node) (edges : List (Node × Node))
    (pops : List Node) (v : Node) : Nat :=
  ((validEdges nodes edges).filter
    (fun e => decide (e.2 = v) && decide (e.1 ∉ pops))).length

theorem unpoppedPreds_nil (nodes : List Node) (edges : List (Node × Node))
    (v : Node) :
    unpoppedPreds nodes edges [] v
      = ((validEdges nodes edges).filter (fun e => decide (e.2 = v))).length := by
  unfold unpoppedPreds
  congr 1
  apply List.filter_congr
  intro e _
  simp

/-- Popping one more node removes exactly its kept out-edges into v from the
unpopped-predecessor count. -/
theorem unpoppedPreds_append (nodes : List Node) (edges : List (Node × Node))
    {pops : List Node} {node : Node} (hnode : node ∉ pops) (v : Node) :
    unpoppedPreds nodes edges (pops ++ [node]) v + edgeCount nodes edges node v
      = unpoppedPreds nodes edges pops v := by
  unfold unpoppedPreds edgeCount
  induction validEdges nodes edges with
  | nil => simp
  | cons e E ih =>
    rw [List.filter_cons, List.filter_cons, List.filter_cons]
    by_cases h2 : e.2 = v
    · by_cases h1 : e.1 = node
      · -- e goes from node into v: removed from the unpopped count,
        -- counted by edgeCount
        rw [if_neg (by simp [h2, h1]), if_pos (by simp [h2, h1]),
          if_pos (by simp [h2, h1, hnode])]
        simp only [List.length_cons]
        omega
      · by_cases hp : e.1 ∈ pops
        · rw [if_neg (by simp [hp]), if_neg (by simp [h1]), if_neg (by simp [hp])]
          exact ih
        · have hp' : e.1 ∉ pops ++ [node] := by
            simp [hp, h1]
          rw [if_pos (by simp [h2, hp']), if_neg (by simp [h1]),
            if_pos (by simp [h2, hp])]
          simp only [List.length_cons]
          omega
    · rw [if_neg (by simp [h2]), if_neg (by simp [h2]), if_neg (by simp [h2])]
      exact ih

theorem unpoppedPreds_append_le (nodes : List Node) (edges : List (Node × Node))
    {pops : List Node} {node : Node} (hnode : node ∉ pops) (v : Node) :
    unpoppedPreds nodes edges (pops ++ [node]) v ≤ unpoppedPreds nodes edges pops v := by
  have := unpoppedPreds_append nodes edges hnode v
  omega

/-- A positive unpopped-predecessor count yields an unpopped predecessor. -/
theorem exists_unpopped_pred {nodes : List Node} {edges : List (Node × Node)}
    {pops : List Node} {v : Node}
    (h : unpoppedPreds nodes edges pops v ≠ 0) :
    ∃ u, ValidEdge nodes edges u v ∧ u ∉ pops := by
  unfold unpoppedPreds at h
  have hne : (validEdges nodes edges).filter
      (fun e => decide (e.2 = v) && decide (e.1 ∉ pops)) ≠ [] := by
    intro hnil
    rw [hnil] at h
    simp at h
  obtain ⟨e, he⟩ := List.exists_mem_of_ne_nil _ hne
  rw [List.mem_filter] at he
  obtain ⟨hev, hcond⟩ := he
  simp only [Bool.and_eq_true, decide_eq_true_eq] at hcond
  obtain ⟨h2, h1⟩ := hcond
  refine ⟨e.1, ?_, h1⟩
  have := mem_validEdges.mp hev
  rw [← h2]
  exact ⟨this.1, this.2.1, this.2.2⟩

theorem count_cons_ite (v a : Node) (L : List Node) :
    List.count v (a :: L) = List.count v L + if v = a then 1 else 0 := by
  rw [List.count_cons]
  by_cases h : v = a
  · subst h; simp
  · rw [if_neg h, if_neg (by simp only [beq_iff_eq]; exact fun hh => h (Eq.symm hh))]

/-- Characterization of the decrement-and-enqueue loop over a neighbour
list: final indegrees drop by the multiplicity, and a node is enqueued
exactly when its indegree reaches zero while processing the list. -/
theorem kahnFold_char :
    ∀ (L : List Node) (ind0 : Node → Int) (q0 : List Node),
      (∀ v, (L.foldl kahnStep (ind0, q0)).1 v = ind0 v - L.count v) ∧
      (∀ v, v ∈ (L.foldl kahnStep (ind0, q0)).2 ↔
        v ∈ q0 ∨ (1 ≤ ind0 v ∧ ind0 v ≤ (L.count v : Int))) ∧
      (q0.Nodup → (∀ v ∈ q0, ind0 v ≤ 0) → (L.foldl kahnStep (ind0, q0)).2.Nodup) := by
  intro L
  induction L with
  | nil =>
    intro ind0 q0
    refine ⟨fun v => by simp, fun v => ?_, fun h _ => h⟩
    simp only [List.foldl_nil, List.count_nil, Nat.cast_zero]
    constructor
    · exact Or.inl
    · rintro (h | h)
      · exact h
      · omega
  | cons a L ih =>
    intro ind0 q0
    rw [List.foldl_cons]
    by_cases hd : ind0 a - 1 = 0
    · have hstep : kahnStep (ind0, q0) a
          = (Function.update ind0 a (ind0 a - 1), q0 ++ [a]) := by
        unfold kahnStep
        dsimp only
        rw [if_pos hd]
      rw [hstep]
      obtain ⟨f1, f2, f3⟩ := ih (Function.update ind0 a (ind0 a - 1)) (q0 ++ [a])
      refine ⟨?_, ?_, ?_⟩
      · intro v
        rw [f1 v, count_cons_ite, Function.update_apply]
        by_cases hva : v = a
        · rw [if_pos hva, if_pos hva]
          subst hva
          push_cast
          omega
        · rw [if_neg hva, if_neg hva]
          push_cast
          omega
      · intro v
        rw [f2 v, Function.update_apply, count_cons_ite]
        by_cases hva : v = a
        · subst hva
          rw [if_pos rfl, if_pos rfl]
          simp only [List.mem_append, List.mem_singleton]
          push_cast
          constructor
          · intro _
            by_cases hvq : v ∈ q0
            · exact Or.inl hvq
            · refine Or.inr ⟨by omega, ?_⟩
              have hc : (0 : Int) ≤ (L.count v : Int) := by positivity
              omega
          · intro _
            exact Or.inl (Or.inr trivial)
        · rw [if_neg hva, if_neg hva]
          simp only [List.mem_append, List.mem_singleton]
          push_cast
          constructor
          · rintro ((hvq | hva') | hrange)
            · exact Or.inl hvq
            · exact absurd hva' hva
            · exact Or.inr (by omega)
          · rintro (hvq | hrange)
            · exact Or.inl (Or.inl hvq)
            · exact Or.inr (by omega)
      · intro hnd hle
        apply f3
        · rw [List.nodup_append]
          refine ⟨hnd, List.nodup_singleton a, ?_⟩
          intro x hx hx'
          rw [List.mem_singleton] at hx'
          subst hx'
          have := hle x hx
          omega
        · intro v hv
          rw [Function.update_apply]
          rcases List.mem_append.mp hv with hv' | hv'
          · by_cases hva : v = a
            · rw [if_pos hva]; omega
            · rw [if_neg hva]; exact hle v hv'
          · rw [List.mem_singleton] at hv'
            rw [if_pos hv']
            omega
    · have hstep : kahnStep (ind0, q0) a
          = (Function.update ind0 a (ind0 a - 1), q0) := by
        unfold kahnStep
        dsimp only
        rw [if_neg hd]
      rw [hstep]
      obtain ⟨f1, f2, f3⟩ := ih (Function.update ind0 a (ind0 a - 1)) q0
      refine ⟨?_, ?_, ?_⟩
      · intro v
        rw [f1 v, count_cons_ite, Function.update_apply]
        by_cases hva : v = a
        · rw [if_pos hva, if_pos hva]
          subst hva
          push_cast
          omega
        · rw [if_neg hva, if_neg hva]
          push_cast
          omega
      · intro v
        rw [f2 v, Function.update_apply, count_cons_ite]
        by_cases hva : v = a
        · subst hva
          rw [if_pos rfl, if_pos rfl]
          push_cast
          constructor
          · rintro (hvq | hrange)
            · exact Or.inl hvq
            · exact Or.inr (by omega)
          · rintro (hvq | hrange)
            · exact Or.inl hvq
            · exact Or.inr (by omega)
        · rw [if_neg hva, if_neg hva]
          push_cast
          constructor
          · rintro (hvq | hrange)
            · exact Or.inl hvq
            · exact Or.inr (by omega)
          · rintro (hvq | hrange)
            · exact Or.inl hvq
            · exact Or.inr (by omega)
      · intro hnd hle
        apply f3 hnd
        intro v hv
        rw [Function.update_apply]
        by_cases hva : v = a
        · rw [if_pos hva]
          subst hva
          have := hle v hv
          omega
        · rw [if_neg hva]
          exact hle v hv

/-- An unpopped kept edge into v keeps v's unpopped count positive. -/
theorem unpoppedPreds_pos_of_edge {nodes : List Node} {edges : List (Node × Node)}
    {pops : List Node} {u v : Node} (he : ValidEdge nodes edges u v)
    (hu : u ∉ pops) : unpoppedPreds nodes edges pops v ≠ 0 := by
  unfold unpoppedPreds
  have hmem : (u, v) ∈ (validEdges nodes edges).filter
      (fun e => decide (e.2 = v) && decide (e.1 ∉ pops)) := by
    rw [List.mem_filter]
    refine ⟨mem_validEdges.mpr ⟨he.1, he.2.1, he.2.2⟩, ?_⟩
    simp [hu]
  have := List.length_pos_of_mem hmem
  omega

/-- The invariant of the instrumented while loop of is_dag_topological. -/
def KInv (nodes : List Node) (edges : List (Node × Node)) (indeg : Node → Int)
    (queue : List Node) (visited : Nat) (pops : List Node) : Prop :=
  (∀ v, indeg v = (unpoppedPreds nodes edges pops v : Int)) ∧
  queue.Nodup ∧
  (∀ v, v ∈ queue ↔ (v ∈ nodes ∧ v ∉ pops ∧ unpoppedPreds nodes edges pops v = 0)) ∧
  pops.Nodup ∧
  visited = pops.length ∧
  (∀ v ∈ pops, v ∈ nodes) ∧
  (∀ v ∈ pops, unpoppedPreds nodes edges pops v = 0) ∧
  (∀ u v, ValidEdge nodes edges u v → v ∈ pops →
    u ∈ pops ∧ pops.indexOf u < pops.indexOf v)

theorem KInv_init (nodes : List Node) (edges : List (Node × Node)) :
    KInv nodes edges (buildIndegree nodes edges)
      ((firstDedup nodes).filter (fun n => decide (buildIndegree nodes edges n = 0)))
      0 [] := by
  refine ⟨?_, ?_, ?_, by simp, by simp, by simp, by simp, by simp⟩
  · intro v
    rw [buildIndegree_eq, unpoppedPreds_nil]
  · exact List.Nodup.filter _ (nodup_firstDedup nodes)
  · intro v
    rw [List.mem_filter, mem_firstDedup]
    constructor
    · rintro ⟨hv, hdeg⟩
      simp only [decide_eq_true_eq] at hdeg
      rw [buildIndegree_eq] at hdeg
      rw [unpoppedPreds_nil]
      refine ⟨hv, by simp, ?_⟩
      omega
    · rintro ⟨hv, _, hdeg⟩
      rw [unpoppedPreds_nil] at hdeg
      refine ⟨hv, ?_⟩
      simp only [decide_eq_true_eq]
      rw [buildIndegree_eq]
      omega

/-- One iteration of the instrumented loop preserves the invariant. -/
theorem KInv_step (nodes : List Node) (edges : List (Node × Node))
    {indeg : Node → Int} {queue : List Node} {visited : Nat} {pops : List Node}
    (hq : queue ≠ [])
    (hinv : KInv nodes edges indeg queue visited pops) :
    KInv nodes edges
      ((buildAdjacency nodes edges (queue.getLast hq)).foldl kahnStep
        (indeg, queue.dropLast)).1
      ((buildAdjacency nodes edges (queue.getLast hq)).foldl kahnStep
        (indeg, queue.dropLast)).2
      (visited + 1) (pops ++ [queue.getLast hq]) := by
  obtain ⟨k1, k2, k3, k4, k5, k6, k7, k8⟩ := hinv
  set node := queue.getLast hq with hnodedef
  set L := buildAdjacency nodes edges node with hLdef
  have hnodeq : node ∈ queue := List.getLast_mem hq
  obtain ⟨hnodeN, hnodeP, hnode0⟩ := (k3 node).mp hnodeq
  have hqsplit : queue.dropLast ++ [node] = queue := List.dropLast_append_getLast hq
  have hnodedrop : node ∉ queue.dropLast := by
    intro hc
    have := k2
    rw [← hqsplit] at this
    rw [List.nodup_append] at this
    exact this.2.2 hc (List.mem_singleton_self node)
  have hdropmem : ∀ v, v ∈ queue.dropLast ↔ v ∈ queue ∧ v ≠ node := by
    intro v
    constructor
    · intro hv
      refine ⟨by rw [← hqsplit]; exact List.mem_append_left _ hv, ?_⟩
      rintro rfl
      exact hnodedrop hv
    · rintro ⟨hv, hne⟩
      rw [← hqsplit] at hv
      rcases List.mem_append.mp hv with h | h
      · exact h
      · rw [List.mem_singleton] at h
        exact absurd h hne
  obtain ⟨f1, f2, f3⟩ := kahnFold_char L indeg queue.dropLast
  have hcount : ∀ v, L.count v = edgeCount nodes edges node v :=
    fun v => count_buildAdjacency nodes edges node v
  have hkey : ∀ v, unpoppedPreds nodes edges (pops ++ [node]) v
      + edgeCount nodes edges node v = unpoppedPreds nodes edges pops v :=
    fun v => unpoppedPreds_append nodes edges hnodeP v
  have hk1' : ∀ v, (L.foldl kahnStep (indeg, queue.dropLast)).1 v
      = (unpoppedPreds nodes edges (pops ++ [node]) v : Int) := by
    intro v
    rw [f1 v, k1 v, hcount v]
    have := hkey v
    omega
  refine ⟨hk1', ?_, ?_, ?_, ?_, ?_, ?_, ?_⟩
  · -- queue nodup
    apply f3
    · exact List.Nodup.sublist (List.dropLast_sublist queue) k2
    · intro v hv
      have hvq : v ∈ queue := ((hdropmem v).mp hv).1
      obtain ⟨_, _, h0⟩ := (k3 v).mp hvq
      rw [k1 v, h0]
      simp
  · -- queue characterization
    intro v
    rw [f2 v, hdropmem v]
    constructor
    · rintro (⟨hvq, hvne⟩ | ⟨hge, hle⟩)
      · obtain ⟨hvN, hvP, hv0⟩ := (k3 v).mp hvq
        refine ⟨hvN, ?_, ?_⟩
        · simp only [List.mem_append, List.mem_singleton, not_or]
          exact ⟨hvP, hvne⟩
        · have := unpoppedPreds_append_le nodes edges hnodeP v
          omega
      · have hvN : v ∈ nodes := by
          rw [k1 v] at hge
          have hcv : 0 < L.count v := by
            rw [hcount v]
            by_contra hc
            push_neg at hc
            rw [k1 v, hcount v] at hle
            omega
          have : v ∈ L := List.count_pos_iff.mp hcv
          exact mem_nodes_of_mem_buildAdjacency this
        have hvP : v ∉ pops := by
          intro hc
          have := k7 v hc
          rw [k1 v, this] at hge
          simp at hge
        have hvnode : v ≠ node := by
          intro hveq
          rw [hveq, k1 node, hnode0] at hge
          simp at hge
        refine ⟨hvN, ?_, ?_⟩
        · simp only [List.mem_append, List.mem_singleton, not_or]
          exact ⟨hvP, hvnode⟩
        · rw [k1 v, hcount v] at hle
          have := hkey v
          omega
    · rintro ⟨hvN, hvP', hv0'⟩
      simp only [List.mem_append, List.mem_singleton, not_or] at hvP'
      obtain ⟨hvP, hvnode⟩ := hvP'
      by_cases h0 : unpoppedPreds nodes edges pops v = 0
      · left
        exact ⟨(k3 v).mpr ⟨hvN, hvP, h0⟩, hvnode⟩
      · right
        rw [k1 v, hcount v]
        have := hkey v
        constructor
        · omega
        · omega
  · -- pops nodup
    rw [List.nodup_append]
    refine ⟨k4, List.nodup_singleton node, ?_⟩
    intro x hx hx'
    rw [List.mem_singleton] at hx'
    subst hx'
    exact hnodeP hx
  · -- visited
    rw [List.length_append, List.length_singleton, k5]
  · -- pops in nodes
    intro v hv
    rcases List.mem_append.mp hv with h | h
    · exact k6 v h
    · rw [List.mem_singleton] at h
      subst h
      exact hnodeN
  · -- popped nodes have no unpopped predecessors
    intro v hv
    rcases List.mem_append.mp hv with h | h
    · have := unpoppedPreds_append_le nodes edges hnodeP v
      have := k7 v h
      omega
    · rw [List.mem_singleton] at h
      subst h
      have hle := unpoppedPreds_append_le nodes edges hnodeP node
      have h0 := hnode0
      omega
  · -- topological pop order
    intro u v he hv
    rcases List.mem_append.mp hv with h | h
    · obtain ⟨hu, hidx⟩ := k8 u v he h
      refine ⟨List.mem_append_left _ hu, ?_⟩
      rw [indexOf_append_left _ hu, indexOf_append_left _ h]
      exact hidx
    · rw [List.mem_singleton] at h
      subst h
      have hu : u ∈ pops := by
        by_contra hc
        exact unpoppedPreds_pos_of_edge he hc hnode0
      refine ⟨List.mem_append_left _ hu, ?_⟩
      rw [indexOf_append_left _ hu, indexOf_append_self hnodeP]
      exact List.indexOf_lt_length.mpr hu

/-- What holds when the instrumented loop ends. -/
def KFinal (nodes : List Node) (edges : List (Node × Node)) (visited : Nat)
    (pops : List Node) : Prop :=
  visited = pops.length ∧ pops.Nodup ∧ (∀ v ∈ pops, v ∈ nodes) ∧
  (∀ u v, ValidEdge nodes edges u v → v ∈ pops →
    u ∈ pops ∧ pops.indexOf u < pops.indexOf v) ∧
  (∀ v, v ∈ nodes → v ∉ pops → unpoppedPreds nodes edges pops v ≠ 0)

theorem kahnLoopP_final (nodes : List Node) (edges : List (Node × Node)) :
    ∀ (fuel : Nat) (indeg : Node → Int) (queue : List Node) (visited : Nat)
      (pops : List Node) (vis' : Nat) (pops' : List Node),
      KInv nodes edges indeg queue visited pops →
      kahnLoopP (buildAdjacency nodes edges) fuel indeg queue visited pops
        = some (vis', pops') →
      KFinal nodes edges vis' pops' := by
  intro fuel
  induction fuel with
  | zero =>
    intro indeg queue visited pops vis' pops' _ h
    exact absurd h (by simp [kahnLoopP])
  | succ fuel ih =>
    intro indeg queue visited pops vis' pops' hinv hrun
    rw [kahnLoopP] at hrun
    by_cases hq : queue = []
    · rw [dif_pos hq] at hrun
      simp only [Option.some.injEq, Prod.mk.injEq] at hrun
      obtain ⟨h1, h2⟩ := hrun
      subst h1; subst h2
      obtain ⟨k1, k2, k3, k4, k5, k6, k7, k8⟩ := hinv
      refine ⟨k5, k4, k6, k8, ?_⟩
      intro v hvN hvP h0
      have : v ∈ queue := (k3 v).mpr ⟨hvN, hvP, h0⟩
      rw [hq] at this
      simp at this
    · rw [dif_neg hq] at hrun
      exact ih _ _ _ _ vis' pops' (KInv_step nodes edges hq hinv) hrun

/-- Along a chain whose relation strictly increases f, f grows from the head
to the last element. -/
theorem chainLt_of_rank {R : Node → Node → Prop} (f : Node → Nat)
    (hf : ∀ a b, R a b → f a < f b) :
    ∀ (l : List Node) (a : Node), List.Chain' R (a :: l) →
      ∀ x ∈ l.getLast?, f a < f x := by
  intro l
  induction l with
  | nil => intro a _ x hx; simp at hx
  | cons b t ih =>
    intro a hchain x hx
    rw [List.chain'_cons] at hchain
    cases t with
    | nil =>
      simp only [List.getLast?_singleton, Option.mem_def, Option.some.injEq] at hx
      subst hx
      exact hf a b hchain.1
    | cons c t' =>
      rw [List.getLast?_cons_cons] at hx
      exact lt_trans (hf a b hchain.1) (ih b hchain.2 x hx)

/-- A rank that strictly increases along every kept edge rules out cycles. -/
theorem no_cycle_of_rank (nodes : List Node) (edges : List (Node × Node))
    (f : Node → Nat) (hf : ∀ u v, ValidEdge nodes edges u v → f u < f v) :
    ¬ HasCycle nodes edges := by
  rintro ⟨l, hlen, hchain, hhl⟩
  cases l with
  | nil => simp at hlen
  | cons a t =>
    cases t with
    | nil => simp at hlen
    | cons b t' =>
      rw [List.getLast?_cons_cons] at hhl
      simp only [List.head?_cons] at hhl
      have := chainLt_of_rank f hf (b :: t') a hchain a hhl.symm
      omega

/-- If is_dag_topological answers true, the graph has no cycle. -/
theorem kahn_true_no_cycle {nodes : List Node} {edges : List (Node × Node)}
    (h : is_dag_topological nodes edges = some true) : ¬ HasCycle nodes edges := by
  unfold is_dag_topological at h
  dsimp only at h
  cases hr : kahnLoop (buildAdjacency nodes edges) (nodes.length + edges.length + 1)
      (buildIndegree nodes edges)
      ((firstDedup nodes).filter (fun n => decide (buildIndegree nodes edges n = 0)))
      0 with
  | none => rw [hr] at h; simp at h
  | some visited =>
    rw [hr] at h
    simp only [Option.map_some', Option.some.injEq, decide_eq_true_eq] at h
    have hproj := kahnLoopP_proj (buildAdjacency nodes edges)
      (nodes.length + edges.length + 1) (buildIndegree nodes edges)
      ((firstDedup nodes).filter (fun n => decide (buildIndegree nodes edges n = 0)))
      0 []
    rw [hr] at hproj
    cases hrp : kahnLoopP (buildAdjacency nodes edges)
        (nodes.length + edges.length + 1) (buildIndegree nodes edges)
        ((firstDedup nodes).filter (fun n => decide (buildIndegree nodes edges n = 0)))
        0 [] with
    | none => rw [hrp] at hproj; simp at hproj
    | some p =>
      obtain ⟨vis', pops⟩ := p
      rw [hrp] at hproj
      simp only [Option.map_some', Option.some.injEq] at hproj
      have hvis : vis' = visited := hproj
      subst hvis
      obtain ⟨g1, g2, g3, g4, g5⟩ := kahnLoopP_final nodes edges _ _ _ _ _ _ _
        (KInv_init nodes edges) hrp
      -- every declared node was popped
      have hsub : pops ⊆ firstDedup nodes := fun x hx => mem_firstDedup.mpr (g3 x hx)
      have hsp := List.subperm_of_subset g2 hsub
      have hlen1 : pops.length ≤ (firstDedup nodes).length := hsp.length_le
      have hlen2 : (firstDedup nodes).length ≤ nodes.length := length_firstDedup_le nodes
      have hlen3 : pops.length = nodes.length := by omega
      have hperm : pops.Perm (firstDedup nodes) :=
        hsp.perm_of_length_le (by omega)
      have hall : ∀ v ∈ nodes, v ∈ pops := by
        intro v hv
        exact hperm.mem_iff.mpr (mem_firstDedup.mpr hv)
      apply no_cycle_of_rank nodes edges (fun u => pops.indexOf u)
      intro u v he
      exact (g4 u v he (hall v he.2.2)).2

/-- A nonempty set of nodes in which every node has a kept-edge predecessor
inside the set contains a cycle (walk backwards and apply pigeonhole). -/
theorem hasCycle_of_pred_closed (nodes : List Node) (edges : List (Node × Node))
    (S : List Node) (hS : S ≠ [])
    (hpred : ∀ v ∈ S, ∃ u, u ∈ S ∧ ValidEdge nodes edges u v) :
    HasCycle nodes edges := by
  obtain ⟨s0, hs0⟩ := List.exists_mem_of_ne_nil S hS
  classical
  let g : Nat → {x : Node // x ∈ S} := fun n =>
    Nat.rec ⟨s0, hs0⟩
      (fun _ p => ⟨(hpred p.1 p.2).choose, (hpred p.1 p.2).choose_spec.1⟩) n
  have hg : ∀ n, ValidEdge nodes edges (g (n + 1)).1 (g n).1 := by
    intro n
    exact (hpred (g n).1 (g n).2).choose_spec.2
  have hmain : ∀ (a b : Nat), a < b → (g a).1 = (g b).1 →
      HasCycle nodes edges := by
    intro a b hab heq
    refine ⟨(List.range (b - a + 1)).map (fun k => (g (b - k)).1), ?_, ?_, ?_⟩
    · simp only [List.length_map, List.length_range]
      omega
    · rw [List.chain'_iff_get]
      intro m hm
      simp only [List.length_map, List.length_range] at hm
      have hb1 : m < ((List.range (b - a + 1)).map (fun k => (g (b - k)).1)).length := by
        simp only [List.length_map, List.length_range]
        omega
      have hb2 : m + 1 < ((List.range (b - a + 1)).map (fun k => (g (b - k)).1)).length := by
        simp only [List.length_map, List.length_range]
        omega
      have hget1 : ((List.range (b - a + 1)).map (fun k => (g (b - k)).1)).get ⟨m, hb1⟩
          = (g (b - m)).1 := by
        rw [List.get_eq_getElem, List.getElem_map]
        congr 1
        rw [List.getElem_range]
      have hget2 : ((List.range (b - a + 1)).map (fun k => (g (b - k)).1)).get ⟨m + 1, hb2⟩
          = (g (b - (m + 1))).1 := by
        rw [List.get_eq_getElem, List.getElem_map]
        congr 1
        rw [List.getElem_range]
      rw [hget1, hget2]
      have hstep : b - m = (b - (m + 1)) + 1 := by omega
      rw [hstep]
      exact hg (b - (m + 1))
    · have h0 : 0 < ((List.range (b - a + 1)).map (fun k => (g (b - k)).1)).length := by
        simp only [List.length_map, List.length_range]
        omega
      have hl : ((List.range (b - a + 1)).map (fun k => (g (b - k)).1)).length - 1
          < ((List.range (b - a + 1)).map (fun k => (g (b - k)).1)).length := by
        omega
      rw [List.head?_eq_getElem?, List.getLast?_eq_getElem?,
        List.getElem?_eq_getElem h0, List.getElem?_eq_getElem hl]
      rw [List.getElem_map, List.getElem_map]
      rw [List.getElem_range, List.getElem_range]
      simp only [List.length_map, List.length_range]
      have e1 : b - 0 = b := by omega
      have e2 : b - (b - a + 1 - 1) = a := by omega
      rw [e1, e2, heq]
  -- pigeonhole over S.length + 1 indices of the backward sequence
  have hnd : ¬ ((List.range (S.length + 1)).map (fun n => (g n).1)).Nodup := by
    intro hndL
    have hsub : (List.range (S.length + 1)).map (fun n => (g n).1) ⊆ S := by
      intro x hx
      obtain ⟨n, _, hnx⟩ := List.mem_map.mp hx
      rw [← hnx]
      exact (g n).2
    have hle := (List.subperm_of_subset hndL hsub).length_le
    simp only [List.length_map, List.length_range] at hle
    omega
  rw [List.nodup_iff_injective_get] at hnd
  obtain ⟨i, j, hget, hij⟩ := Function.not_injective_iff.mp hnd
  have hgetv : ∀ (k : Fin ((List.range (S.length + 1)).map (fun n => (g n).1)).length),
      ((List.range (S.length + 1)).map (fun n => (g n).1)).get k = (g k.1).1 := by
    intro k
    rw [List.get_eq_getElem, List.getElem_map]
    congr 1
    rw [List.getElem_range]
  rw [hgetv i, hgetv j] at hget
  have hijv : (i : Nat) ≠ (j : Nat) := fun hc => hij (Fin.ext hc)
  rcases Nat.lt_or_ge (i : Nat) (j : Nat) with h | h
  · exact hmain i j h hget
  · have hlt : (j : Nat) < (i : Nat) := by omega
    exact hmain j i hlt hget.symm

/-- On a duplicate-free node list, an acyclic graph makes is_dag_topological
answer true. -/
theorem kahn_complete {nodes : List Node} {edges : List (Node × Node)}
    (hnd : nodes.Nodup) (hnc : ¬ HasCycle nodes edges) :
    is_dag_topological nodes edges = some true := by
  have hks := is_dag_topological_isSome nodes edges
  unfold is_dag_topological at hks ⊢
  dsimp only at hks ⊢
  cases hr : kahnLoop (buildAdjacency nodes edges) (nodes.length + edges.length + 1)
      (buildIndegree nodes edges)
      ((firstDedup nodes).filter (fun n => decide (buildIndegree nodes edges n = 0)))
      0 with
  | none => rw [hr] at hks; simp at hks
  | some visited =>
    have hproj := kahnLoopP_proj (buildAdjacency nodes edges)
      (nodes.length + edges.length + 1) (buildIndegree nodes edges)
      ((firstDedup nodes).filter (fun n => decide (buildIndegree nodes edges n = 0)))
      0 []
    rw [hr] at hproj
    cases hrp : kahnLoopP (buildAdjacency nodes edges)
        (nodes.length + edges.length + 1) (buildIndegree nodes edges)
        ((firstDedup nodes).filter (fun n => decide (buildIndegree nodes edges n = 0)))
        0 [] with
    | none => rw [hrp] at hproj; simp at hproj
    | some p =>
      obtain ⟨vis', pops⟩ := p
      rw [hrp] at hproj
      simp only [Option.map_some', Option.some.injEq] at hproj
      have hvis : vis' = visited := hproj
      subst hvis
      obtain ⟨g1, g2, g3, g4, g5⟩ := kahnLoopP_final nodes edges _ _ _ _ _ _ _
        (KInv_init nodes edges) hrp
      -- every declared node must have been popped, else the unpopped part
      -- is predecessor-closed and would contain a cycle
      have hall : ∀ v ∈ nodes, v ∈ pops := by
        by_contra hc
        push_neg at hc
        obtain ⟨w, hwN, hwP⟩ := hc
        have hSne : nodes.filter (fun v => decide (v ∉ pops)) ≠ [] := by
          intro hnil
          have : w ∈ nodes.filter (fun v => decide (v ∉ pops)) := by
            rw [List.mem_filter]
            exact ⟨hwN, by simpa using hwP⟩
          rw [hnil] at this
          simp at this
        apply hnc
        apply hasCycle_of_pred_closed nodes edges
          (nodes.filter (fun v => decide (v ∉ pops))) hSne
        intro v hv
        rw [List.mem_filter] at hv
        obtain ⟨hvN, hvP⟩ := hv
        simp only [decide_eq_true_eq] at hvP
        obtain ⟨u, hue, huP⟩ := exists_unpopped_pred (g5 v hvN hvP)
        refine ⟨u, ?_, hue⟩
        rw [List.mem_filter]
        exact ⟨hue.2.1, by simpa using huP⟩
      -- pops is then a permutation of nodes
      have hsub : pops ⊆ nodes := g3
      have hsp := List.subperm_of_subset g2 hsub
      have hsp2 := List.subperm_of_subset hnd hall
      have hlen : pops.length = nodes.length :=
        Nat.le_antisymm hsp.length_le hsp2.length_le
      simp only [Option.map_some', Option.some.injEq, decide_eq_true_eq]
      omega

/-- C2 counterexample: with a duplicated node identifier the two checks
disagree: the DFS check answers true, Kahn's check false. -/
theorem claim_C2_counterexample_duplicates :
    is_dag_dfs ["A", "A"] [] = some true ∧
    is_dag_topological ["A", "A"] [] = some false ∧
    ¬ is_dag_dfs ["A", "A"] [] = is_dag_topological ["A", "A"] [] := by
  refine ⟨by decide, by decide, by decide⟩

/-- C2 (amended): on every node list without duplicate identifiers, the
DFS-based check and the Kahn's-algorithm check agree. -/
theorem claim_C2_checks_agree_nodup (nodes : List Node)
    (edges : List (Node × Node)) (hnd : nodes.Nodup) :
    is_dag_dfs nodes edges = is_dag_topological nodes edges := by
  rcases is_dag_dfs_eq_some_true_or_false nodes edges with h | h
  · rw [h]
    exact (kahn_complete hnd ((is_dag_dfs_iff_no_cycle nodes edges).mp h)).symm
  · rw [h]
    have hc := hasCycle_of_is_dag_false h
    have hks := is_dag_topological_isSome nodes edges
    cases hk : is_dag_topological nodes edges with
    | none => rw [hk] at hks; simp at hks
    | some b =>
      cases b with
      | true => exact absurd hc (kahn_true_no_cycle hk)
      | false => rfl

theorem claim_C2_witness :
    is_dag_dfs ["A", "B"] [("A", "B")] = is_dag_topological ["A", "B"] [("A", "B")] :=
  claim_C2_checks_agree_nodup ["A", "B"] [("A", "B")] (by decide)
